import Mathlib

/-!
Shallow embedding of `lightning/src/ln/peers/encryption.rs` (BOLT-8 transport
cipher): `Encryptor`/`Decryptor` framing, nonce sequencing and key rotation.

Bytes are modelled as `Nat` (a Rust `u8` is a value `< 256`; at the points
where the source relies on the `u8`/`u16`/`u32` types, the model applies the
corresponding `% 256` / `% 2 ^ 16` / `% 2 ^ 32` reduction).  Rust panics are
modelled as `none` / a dedicated `panicked` result constructor; `Result` is
modelled with explicit result inductives that also carry the mutated state on
the error path, because the Rust methods mutate `self` in place before
returning `Err`.
-/

namespace Encryption

/-- One byte of the wire stream, modelled as a natural number. -/
abbrev Byte := Nat

/-- Source `pub type SymmetricKey = [u8; 32]`, modelled as a byte list. -/
abbrev SymmetricKey := List Byte

/-- Source `pub const LN_MAX_MSG_LEN: usize = 65535` (encryption.rs line 21). -/
def LN_MAX_MSG_LEN : Nat := 65535

namespace chacha

/-- Poly1305 tag size, 16 bytes (chacha module constant referenced by encryption.rs). -/
def TAG_SIZE : Nat := 16

end chacha

/-- Source `pub const MESSAGE_LENGTH_HEADER_SIZE: usize = 2` (encryption.rs line 24). -/
def MESSAGE_LENGTH_HEADER_SIZE : Nat := 2

/-- Source `pub const TAGGED_MESSAGE_LENGTH_HEADER_SIZE = MESSAGE_LENGTH_HEADER_SIZE + TAG_SIZE` (= 18). -/
def TAGGED_MESSAGE_LENGTH_HEADER_SIZE : Nat := MESSAGE_LENGTH_HEADER_SIZE + chacha.TAG_SIZE

/-- Source `pub const LN_MAX_PACKET_LENGTH = MESSAGE_LENGTH_HEADER_SIZE + TAG_SIZE + LN_MAX_MSG_LEN + TAG_SIZE` (= 65569). -/
def LN_MAX_PACKET_LENGTH : Nat :=
  MESSAGE_LENGTH_HEADER_SIZE + chacha.TAG_SIZE + LN_MAX_MSG_LEN + chacha.TAG_SIZE

/-- Source `pub const KEY_ROTATION_INDEX: u32 = 1000` (encryption.rs line 27). -/
def KEY_ROTATION_INDEX : Nat := 1000

namespace byte_utils

/-- Modelled from the spec: `byte_utils::be16_to_array` (the `util::byte_utils`
module is not under `src/`); serializes a `u16` value big-endian into 2 bytes
(spec section 4.4: "Let `len = buffer.len() as u16` serialized big-endian (2 bytes)"). -/
def be16_to_array (v : Nat) : List Byte :=
  [v % 2 ^ 16 / 256, v % 256]

/-- Modelled from the spec: `byte_utils::slice_to_be16` (the `util::byte_utils`
module is not under `src/`); reads 2 bytes big-endian into a `u16`
(spec section 4.5: "`L = be16(length_bytes)`").  The `% 256` encodes that the
input bytes are Rust `u8` values. -/
def slice_to_be16 (l : List Byte) : Nat :=
  l.getD 0 0 % 256 * 256 + l.getD 1 0 % 256

end byte_utils

namespace chacha

/-- Modelled from the spec: the ChaCha20-Poly1305 primitive lives in the
`ln::peers::chacha` module which is not under `src/`.  Spec section 4.1 fixes
only its interface: a stream cipher (keystream XOR) keyed by `(key, nonce)`
plus a 16-byte authentication tag, with decryption verifying the tag before
releasing the plaintext and failing with `invalid hmac` on mismatch.  The
model absorbs the key and nonce into a single mixing value. -/
def keyAbsorb (key : SymmetricKey) (nonce : Nat) : Nat :=
  key.foldl (fun a b => (a * 131 + b % 256 + 7) % 65521) (nonce % 2 ^ 32 % 65521)

/-- Modelled from the spec: byte `i` of the keystream for `(key, nonce)`. -/
def keystreamByte (key : SymmetricKey) (nonce : Nat) (i : Nat) : Byte :=
  (keyAbsorb key nonce + 31 * i + 11) % 256

/-- Modelled from the spec: XOR the keystream (starting at position `i`) onto a
byte list; used for both directions of the stream cipher. -/
def xorKeystream (key : SymmetricKey) (nonce : Nat) : Nat → List Byte → List Byte
  | _, [] => []
  | i, b :: rest => (b ^^^ keystreamByte key nonce i) :: xorKeystream key nonce (i + 1) rest

/-- Modelled from the spec: the 16-byte Poly1305 tag over the associated data
and the ciphertext, keyed by `(key, nonce)`. -/
def mkTag (key : SymmetricKey) (nonce : Nat) (ad c : List Byte) : List Byte :=
  (List.range TAG_SIZE).map
    (fun j => ((ad ++ c).foldl (fun a b => (a * 131 + b % 256 + 13) % 65521) (keyAbsorb key nonce) + 37 * j + 5) % 256)

/-- Modelled from the spec: `chacha::encrypt(key, nonce, ad, plaintext, out)`
producing `ciphertext || tag` (spec section 4.1). -/
def encrypt (key : SymmetricKey) (nonce : Nat) (ad plaintext : List Byte) : List Byte :=
  let c := xorKeystream key nonce 0 plaintext
  c ++ mkTag key nonce ad c

/-- Modelled from the spec: `chacha::decrypt(key, nonce, ad, data, out)`
verifying the trailing 16-byte tag before writing the plaintext and failing
with `invalid hmac` on mismatch (spec sections 4.1 and 7; the error string is
the one checked by the repository's own test `decryption_failure_errors`). -/
def decrypt (key : SymmetricKey) (nonce : Nat) (ad data : List Byte) : Except String (List Byte) :=
  let c := data.take (data.length - TAG_SIZE)
  let tag := data.drop (data.length - TAG_SIZE)
  if tag = mkTag key nonce ad c then .ok (xorKeystream key nonce 0 c)
  else .error "invalid hmac"

end chacha

namespace hkdf5869rfc

/-- Modelled from the spec: `hkdf5869rfc::derive(salt, ikm)` (the module is not
under `src/`); RFC 5869 HKDF producing two 32-byte outputs from a 32-byte salt
and 32-byte input keying material (spec section 4.1). -/
def derive (salt ikm : SymmetricKey) : SymmetricKey × SymmetricKey :=
  let prk := (salt ++ ikm).foldl (fun a b => (a * 131 + b % 256 + 19) % 65521) 1
  ((List.range 32).map (fun i => (prk + 41 * i + 1) % 256),
   (List.range 32).map (fun i => (prk + 43 * i + 2) % 256))

end hkdf5869rfc

/-- Source `increment_nonce_helper` (encryption.rs lines 47-53): `*nonce += 1` on a
`u32` (hence the `% 2 ^ 32`); when the incremented nonce equals
`KEY_ROTATION_INDEX` the keys are rotated through `rotate_key` (HKDF, lines
56-60) and the nonce is reset to 0.  Returns `(nonce, chaining_key, key)`. -/
def increment_nonce_helper (nonce : Nat) (chaining_key key : SymmetricKey) :
    Nat × SymmetricKey × SymmetricKey :=
  let nonce2 := (nonce + 1) % 2 ^ 32
  if nonce2 = KEY_ROTATION_INDEX then
    (0, (hkdf5869rfc.derive chaining_key key).1, (hkdf5869rfc.derive chaining_key key).2)
  else
    (nonce2, chaining_key, key)

/-- Source `pub struct Encryptor` (encryption.rs lines 62-66). -/
structure Encryptor where
  sending_key : SymmetricKey
  sending_chaining_key : SymmetricKey
  sending_nonce : Nat
deriving DecidableEq

/-- Source `pub struct Decryptor` (encryption.rs lines 68-76).  `decrypted_payloads`
is a FIFO `VecDeque` modelled as a list (push_back appends, pop_front takes
the head). -/
structure Decryptor where
  receiving_key : SymmetricKey
  receiving_chaining_key : SymmetricKey
  receiving_nonce : Nat
  pending_message_length : Option Nat
  read_buffer : Option (List Byte)
  decrypted_payloads : List (List Byte)
deriving DecidableEq

/-- Source `create_encryptor_decryptor` (encryption.rs lines 30-44). -/
def create_encryptor_decryptor (sending_key receiving_key chaining_key : SymmetricKey) :
    Encryptor × Decryptor :=
  (⟨sending_key, chaining_key, 0⟩,
   ⟨receiving_key, chaining_key, 0, none, some [], []⟩)

/-- Source `Encryptor::increment_nonce` (encryption.rs lines 106-108). -/
def Encryptor.increment_nonce (e : Encryptor) : Encryptor :=
  ⟨(increment_nonce_helper e.sending_nonce e.sending_chaining_key e.sending_key).2.2,
   (increment_nonce_helper e.sending_nonce e.sending_chaining_key e.sending_key).2.1,
   (increment_nonce_helper e.sending_nonce e.sending_chaining_key e.sending_key).1⟩

/-- Source `Decryptor::increment_nonce` (encryption.rs lines 195-197). -/
def Decryptor.increment_nonce (d : Decryptor) : Decryptor :=
  { d with
    receiving_key := (increment_nonce_helper d.receiving_nonce d.receiving_chaining_key d.receiving_key).2.2,
    receiving_chaining_key := (increment_nonce_helper d.receiving_nonce d.receiving_chaining_key d.receiving_key).2.1,
    receiving_nonce := (increment_nonce_helper d.receiving_nonce d.receiving_chaining_key d.receiving_key).1 }

/-- Source `Encryptor::encrypt_buf` (encryption.rs lines 87-104).  The
`panic!("Attempted to encrypt message longer than ...")` on an oversize buffer
is modelled as `none`; otherwise the result is the mutated encryptor and the
ciphertext `enc(len_be16) || enc(buffer)`, each AEAD application followed by
`increment_nonce`.  `buffer.len() as u16` is the `% 2 ^ 16`. -/
def Encryptor.encrypt_buf (e : Encryptor) (buffer : List Byte) : Option (Encryptor × List Byte) :=
  if buffer.length > LN_MAX_MSG_LEN then none
  else
    let length_bytes := byte_utils.be16_to_array (buffer.length % 2 ^ 16)
    let header := chacha.encrypt e.sending_key e.sending_nonce [] length_bytes
    let e1 := e.increment_nonce
    let body := chacha.encrypt e1.sending_key e1.sending_nonce [] buffer
    some (e1.increment_nonce, header ++ body)

/-- Result of `Decryptor::decrypt_next` (encryption.rs lines 156-193).
`ok d res` is `Ok((res, bytes_read))` where `res = none` stands for the
source's `Ok((None, 0))` (the only `None` return shape, lines 163 and 180, is
paired with 0 consumed bytes) and `res = some (msg, n)` for `Ok((Some msg, n))`.
`err d e` is `Err(e)`; the mutated `self` is carried alongside because the
Rust method mutates in place before returning. -/
inductive DecryptNextResult where
  | ok (d : Decryptor) (res : Option (List Byte × Nat))
  | err (d : Decryptor) (e : String)
deriving DecidableEq

/-- The second phase of `Decryptor::decrypt_next` (encryption.rs lines
176-192), shared by the `pending_message_length` path and the
freshly-decrypted-header path: check availability of
`message_end_index = 18 + L + 16` bytes, stash the pending length if short,
otherwise decrypt `buffer[18..end]` and advance the nonce. -/
def Decryptor.decryptBody (d : Decryptor) (buffer : List Byte) (message_length : Nat) :
    DecryptNextResult :=
  let message_end_index := TAGGED_MESSAGE_LENGTH_HEADER_SIZE + message_length + chacha.TAG_SIZE
  if buffer.length < message_end_index then
    .ok { d with pending_message_length := some message_length } none
  else
    let d2 := { d with pending_message_length := none }
    let encrypted_message := (buffer.take message_end_index).drop TAGGED_MESSAGE_LENGTH_HEADER_SIZE
    match chacha.decrypt d2.receiving_key d2.receiving_nonce [] encrypted_message with
    | .error e => .err d2 e
    | .ok message => .ok d2.increment_nonce (some (message, message_end_index))

/-- Source `Decryptor::decrypt_next` (encryption.rs lines 156-193): if no header is
pending and fewer than 18 bytes are available return `(None, 0)` untouched;
otherwise decrypt the 18-byte tagged length header under the current nonce,
advance the nonce, and fall through to the body phase. -/
def Decryptor.decrypt_next (d : Decryptor) (buffer : List Byte) : DecryptNextResult :=
  match d.pending_message_length with
  | some message_length => d.decryptBody buffer message_length
  | none =>
    if buffer.length < TAGGED_MESSAGE_LENGTH_HEADER_SIZE then .ok d none
    else
      match chacha.decrypt d.receiving_key d.receiving_nonce []
          (buffer.take TAGGED_MESSAGE_LENGTH_HEADER_SIZE) with
      | .error e => .err d e
      | .ok length_bytes =>
        d.increment_nonce.decryptBody buffer (byte_utils.slice_to_be16 length_bytes)

/-- Result of the extraction loop inside `Decryptor::read` (encryption.rs
lines 127-142): `ok d residue` is a normal loop exit (the `Ok((None, 0))` arm,
which in the source stores the residue and breaks), `err d e` is the
`Err(e) => return Err(e)` arm.  The `Ok((None, _)) => panic!` arm of the
source is unreachable because `decrypt_next` only ever pairs `None` with 0
consumed bytes, which the model encodes in `DecryptNextResult`. -/
inductive LoopResult where
  | ok (d : Decryptor) (residue : List Byte)
  | err (d : Decryptor) (e : String)
deriving DecidableEq

/-- The extraction loop of `Decryptor::read` (encryption.rs lines 126-142).
The source iterates with a `read_offset` into a fixed `buffer`; the model
equivalently recurses on the not-yet-consumed suffix `rest`
(`buffer[read_offset..]`).  Each extracted payload is pushed onto
`decrypted_payloads`; the loop exits with the unconsumed residue. -/
def Decryptor.readLoop (d : Decryptor) (rest : List Byte) : LoopResult :=
  match h : d.decrypt_next rest with
  | .err d' e => .err d' e
  | .ok d' none => .ok d' rest
  | .ok d' (some (result, n)) =>
      Decryptor.readLoop
        { d' with decrypted_payloads := d'.decrypted_payloads ++ [result] } (rest.drop n)
termination_by rest.length
decreasing_by
  have hb : 34 ≤ n ∧ n ≤ rest.length := by
    unfold Decryptor.decrypt_next at h
    have body : ∀ (d0 : Decryptor) (L : Nat), d0.decryptBody rest L = .ok d' (some (result, n)) →
        34 ≤ n ∧ n ≤ rest.length := by
      intro d0 L hbd
      unfold Decryptor.decryptBody at hbd
      simp only [TAGGED_MESSAGE_LENGTH_HEADER_SIZE, MESSAGE_LENGTH_HEADER_SIZE,
        chacha.TAG_SIZE] at hbd
      by_cases hlt : rest.length < 2 + 16 + L + 16
      · simp [hlt] at hbd
      · simp only [hlt, if_false] at hbd
        cases hdec : chacha.decrypt d0.receiving_key d0.receiving_nonce []
            ((rest.take (2 + 16 + L + 16)).drop (2 + 16)) with
        | error e => rw [hdec] at hbd; simp at hbd
        | ok msg =>
          rw [hdec] at hbd
          simp only [DecryptNextResult.ok.injEq, Option.some.injEq, Prod.mk.injEq] at hbd
          omega
    cases hp : d.pending_message_length with
    | some L => rw [hp] at h; exact body d L h
    | none =>
      rw [hp] at h
      by_cases hlt : rest.length < TAGGED_MESSAGE_LENGTH_HEADER_SIZE
      · simp [hlt] at h
      · simp only [hlt, if_false] at h
        cases hdec : chacha.decrypt d.receiving_key d.receiving_nonce []
            (rest.take TAGGED_MESSAGE_LENGTH_HEADER_SIZE) with
        | error e => rw [hdec] at h; simp at h
        | ok lb =>
          rw [hdec] at h
          exact body d.increment_nonce (byte_utils.slice_to_be16 lb) h
  simp only [List.length_drop]
  omega

/-- Abort-aware result of `Decryptor::read` (encryption.rs lines 116-152).  `panicked` models the
two aborts: `self.read_buffer.take().unwrap()` when `read_buffer` is `None`
(line 117) and the oversize-residue `panic!` after the loop (lines 147-149). -/
inductive ReadResult where
  | ok (d : Decryptor)
  | err (d : Decryptor) (e : String)
  | panicked
deriving DecidableEq

/-- Source `Decryptor::read` (encryption.rs lines 116-152): take the read buffer
(panicking if it was already taken), append the new data (fast path when the
buffer is empty), run the extraction loop, store the residue back, and panic
if the residue exceeds `LN_MAX_PACKET_LENGTH`. -/
def Decryptor.read (d : Decryptor) (data : List Byte) : ReadResult :=
  match d.read_buffer with
  | none => .panicked
  | some read_buffer =>
    let d0 := { d with read_buffer := none }
    let buffer := if read_buffer.isEmpty then data else read_buffer ++ data
    match d0.readLoop buffer with
    | .err d' e => .err d' e
    | .ok d' residue =>
      if residue.length > LN_MAX_PACKET_LENGTH then .panicked
      else .ok { d' with read_buffer := some residue }

/-- Source `impl Iterator for Decryptor` (encryption.rs lines 78-84):
`decrypted_payloads.pop_front()`, returning the dequeued payload and the
updated decryptor. -/
def Decryptor.next (d : Decryptor) : Decryptor × Option (List Byte) :=
  match d.decrypted_payloads with
  | [] => (d, none)
  | p :: rest => ({ d with decrypted_payloads := rest }, some p)

/-- Calling `Decryptor::read` once per piece, in order, propagating the first
error or panic (used to state the fragmentation claim). -/
def Decryptor.readPieces (d : Decryptor) : List (List Byte) → ReadResult
  | [] => .ok d
  | piece :: rest =>
    match d.read piece with
    | .ok d' => d'.readPieces rest
    | .err d' e => .err d' e
    | .panicked => .panicked

/-- The mutable cipher state `(nonce, chaining_key, key)` shared by both
directions; `increment_nonce_helper` is one step on it. -/
def cipherStep (s : Nat × SymmetricKey × SymmetricKey) : Nat × SymmetricKey × SymmetricKey :=
  increment_nonce_helper s.1 s.2.1 s.2.2

/-- The `(nonce, chaining_key, key)` triple of an encryptor. -/
def Encryptor.triple (e : Encryptor) : Nat × SymmetricKey × SymmetricKey :=
  (e.sending_nonce, e.sending_chaining_key, e.sending_key)

/-- The `(nonce, chaining_key, key)` triple of a decryptor. -/
def Decryptor.triple (d : Decryptor) : Nat × SymmetricKey × SymmetricKey :=
  (d.receiving_nonce, d.receiving_chaining_key, d.receiving_key)

/-- The effect of one `increment_nonce` on the nonce counter alone (it does
not depend on the keys). -/
def nonceStep (n : Nat) : Nat :=
  if (n + 1) % 2 ^ 32 = KEY_ROTATION_INDEX then 0 else (n + 1) % 2 ^ 32

/-- The encryptor after `m` successive `encrypt_buf` calls with the empty
payload (each call is two AEAD operations); the `none` branch of the match is
unreachable because the empty payload is never oversize. -/
def encIter (e : Encryptor) : Nat → Encryptor
  | 0 => e
  | m + 1 =>
    match (encIter e m).encrypt_buf [] with
    | some (e', _) => e'
    | none => encIter e m

/-- A decryptor state whose pending length (if any) is a value the code can
actually produce (`slice_to_be16` of two bytes is at most 65535). -/
def pendingGood (d : Decryptor) : Prop :=
  match d.pending_message_length with
  | none => True
  | some L => L ≤ 65535

/-! Basic facts about the constants and the modelled primitives. -/

theorem tagged_header_size_eq : TAGGED_MESSAGE_LENGTH_HEADER_SIZE = 18 := rfl

theorem max_packet_length_eq : LN_MAX_PACKET_LENGTH = 65569 := rfl

theorem tag_size_eq : chacha.TAG_SIZE = 16 := rfl

theorem max_msg_len_eq : LN_MAX_MSG_LEN = 65535 := rfl

theorem key_rotation_index_eq : KEY_ROTATION_INDEX = 1000 := rfl

theorem length_xorKeystream (key : SymmetricKey) (nonce : Nat) :
    ∀ (i : Nat) (l : List Byte), (chacha.xorKeystream key nonce i l).length = l.length := by
  intro i l
  induction l generalizing i with
  | nil => rfl
  | cons b rest ih => simp [chacha.xorKeystream, ih]

theorem xorKeystream_xorKeystream (key : SymmetricKey) (nonce : Nat) :
    ∀ (i : Nat) (l : List Byte),
      chacha.xorKeystream key nonce i (chacha.xorKeystream key nonce i l) = l := by
  intro i l
  induction l generalizing i with
  | nil => rfl
  | cons b rest ih =>
    simp only [chacha.xorKeystream, List.cons.injEq]
    exact ⟨Nat.xor_cancel_right _ _, ih (i + 1)⟩

theorem length_mkTag (key : SymmetricKey) (nonce : Nat) (ad c : List Byte) :
    (chacha.mkTag key nonce ad c).length = 16 := by
  simp [chacha.mkTag, chacha.TAG_SIZE]

theorem length_chacha_encrypt (key : SymmetricKey) (nonce : Nat) (ad p : List Byte) :
    (chacha.encrypt key nonce ad p).length = p.length + 16 := by
  simp [chacha.encrypt, length_xorKeystream, length_mkTag]

theorem chacha_decrypt_encrypt (key : SymmetricKey) (nonce : Nat) (ad p : List Byte) :
    chacha.decrypt key nonce ad (chacha.encrypt key nonce ad p) = .ok p := by
  unfold chacha.decrypt chacha.encrypt
  have hlen : (chacha.xorKeystream key nonce 0 p ++ chacha.mkTag key nonce ad
      (chacha.xorKeystream key nonce 0 p)).length
      - chacha.TAG_SIZE = (chacha.xorKeystream key nonce 0 p).length := by
    simp [length_xorKeystream, length_mkTag, chacha.TAG_SIZE]
  simp only [hlen, List.take_left, List.drop_left]
  simp [xorKeystream_xorKeystream]

theorem slice_to_be16_be16_to_array (v : Nat) :
    byte_utils.slice_to_be16 (byte_utils.be16_to_array v) = v % 2 ^ 16 := by
  simp only [byte_utils.be16_to_array, byte_utils.slice_to_be16, List.getD_cons_zero,
    List.getD_cons_succ]
  omega

theorem slice_to_be16_le (l : List Byte) : byte_utils.slice_to_be16 l ≤ 65535 := by
  simp only [byte_utils.slice_to_be16]
  have h0 : l.getD 0 0 % 256 ≤ 255 := Nat.le_of_lt_succ (Nat.mod_lt _ (by omega))
  have h1 : l.getD 1 0 % 256 ≤ 255 := Nat.le_of_lt_succ (Nat.mod_lt _ (by omega))
  omega

/-! State bookkeeping lemmas. -/

theorem Decryptor.eta_pending {d : Decryptor} {q : Option Nat}
    (h : d.pending_message_length = q) :
    { d with pending_message_length := q } = d := by
  cases d
  simp only [Decryptor.mk.injEq, and_true, true_and]
  exact h.symm ▸ rfl

theorem increment_nonce_fields (d : Decryptor) :
    d.increment_nonce.pending_message_length = d.pending_message_length ∧
    d.increment_nonce.read_buffer = d.read_buffer ∧
    d.increment_nonce.decrypted_payloads = d.decrypted_payloads :=
  ⟨rfl, rfl, rfl⟩

theorem enc_increment_nonce_triple (e : Encryptor) :
    e.increment_nonce.triple = cipherStep e.triple := rfl

theorem dec_increment_nonce_triple (d : Decryptor) :
    d.increment_nonce.triple = cipherStep d.triple := rfl

theorem decryptBody_pending_irrel (d : Decryptor) (q : Option Nat) (buffer : List Byte)
    (L : Nat) :
    Decryptor.decryptBody { d with pending_message_length := q } buffer L =
      d.decryptBody buffer L := by
  cases d
  rfl

theorem message_end_eq (L : Nat) :
    TAGGED_MESSAGE_LENGTH_HEADER_SIZE + L + chacha.TAG_SIZE = 34 + L := by
  simp only [tagged_header_size_eq, tag_size_eq]
  omega

/-! Evaluation lemmas for the two phases of `decrypt_next`. -/

theorem decryptBody_stash {d : Decryptor} {buffer : List Byte} {L : Nat}
    (h : buffer.length < 34 + L) :
    d.decryptBody buffer L = .ok { d with pending_message_length := some L } none := by
  have h' : buffer.length < TAGGED_MESSAGE_LENGTH_HEADER_SIZE + L + chacha.TAG_SIZE := by
    rw [message_end_eq]; exact h
  simp only [Decryptor.decryptBody, if_pos h']

theorem decryptBody_err {d : Decryptor} {buffer : List Byte} {L : Nat} {e : String}
    (hge : 34 + L ≤ buffer.length)
    (hdec : chacha.decrypt d.receiving_key d.receiving_nonce []
      ((buffer.take (34 + L)).drop 18) = .error e) :
    d.decryptBody buffer L = .err { d with pending_message_length := none } e := by
  simp only [Decryptor.decryptBody, message_end_eq]
  rw [if_neg (by omega : ¬ buffer.length < 34 + L)]
  simp only [tagged_header_size_eq]
  rw [hdec]

theorem decryptBody_extract {d : Decryptor} {buffer : List Byte} {L : Nat} {msg : List Byte}
    (hge : 34 + L ≤ buffer.length)
    (hdec : chacha.decrypt d.receiving_key d.receiving_nonce []
      ((buffer.take (34 + L)).drop 18) = .ok msg) :
    d.decryptBody buffer L =
      .ok ({ d with pending_message_length := none }).increment_nonce (some (msg, 34 + L)) := by
  simp only [Decryptor.decryptBody, message_end_eq]
  rw [if_neg (by omega : ¬ buffer.length < 34 + L)]
  simp only [tagged_header_size_eq]
  rw [hdec]

theorem decrypt_next_pending {d : Decryptor} {buffer : List Byte} {L : Nat}
    (h : d.pending_message_length = some L) :
    d.decrypt_next buffer = d.decryptBody buffer L := by
  simp only [Decryptor.decrypt_next, h]

theorem decrypt_next_short {d : Decryptor} {buffer : List Byte}
    (hp : d.pending_message_length = none) (h : buffer.length < 18) :
    d.decrypt_next buffer = .ok d none := by
  have h' : buffer.length < TAGGED_MESSAGE_LENGTH_HEADER_SIZE := by
    rw [tagged_header_size_eq]; exact h
  simp only [Decryptor.decrypt_next, hp, if_pos h']

theorem decrypt_next_header_err {d : Decryptor} {buffer : List Byte} {e : String}
    (hp : d.pending_message_length = none) (h : 18 ≤ buffer.length)
    (hdec : chacha.decrypt d.receiving_key d.receiving_nonce [] (buffer.take 18) = .error e) :
    d.decrypt_next buffer = .err d e := by
  have h' : ¬ buffer.length < TAGGED_MESSAGE_LENGTH_HEADER_SIZE := by
    rw [tagged_header_size_eq]; omega
  simp only [Decryptor.decrypt_next, hp, tagged_header_size_eq]
  rw [hdec, if_neg (by omega : ¬ buffer.length < 18)]

theorem decrypt_next_header_ok {d : Decryptor} {buffer : List Byte} {lb : List Byte}
    (hp : d.pending_message_length = none) (h : 18 ≤ buffer.length)
    (hdec : chacha.decrypt d.receiving_key d.receiving_nonce [] (buffer.take 18) = .ok lb) :
    d.decrypt_next buffer =
      d.increment_nonce.decryptBody buffer (byte_utils.slice_to_be16 lb) := by
  have h' : ¬ buffer.length < TAGGED_MESSAGE_LENGTH_HEADER_SIZE := by
    rw [tagged_header_size_eq]; omega
  simp only [Decryptor.decrypt_next, hp, tagged_header_size_eq]
  rw [hdec, if_neg (by omega : ¬ buffer.length < 18)]

/-! Evaluation lemmas for the extraction loop and `read`. -/

theorem readLoop_err {d : Decryptor} {rest : List Byte} {d' : Decryptor} {e : String}
    (h : d.decrypt_next rest = .err d' e) :
    d.readLoop rest = .err d' e := by
  unfold Decryptor.readLoop
  split
  case _ heq => rw [h] at heq; injection heq with h1 h2; rw [h1, h2]
  case _ heq => rw [h] at heq; cases heq
  case _ heq => rw [h] at heq; cases heq

theorem readLoop_break {d : Decryptor} {rest : List Byte} {d' : Decryptor}
    (h : d.decrypt_next rest = .ok d' none) :
    d.readLoop rest = .ok d' rest := by
  unfold Decryptor.readLoop
  split
  case _ heq => rw [h] at heq; cases heq
  case _ heq => rw [h] at heq; injection heq with h1 h2; rw [h1]
  case _ heq => rw [h] at heq; injection heq with h1 h2; cases h2

theorem readLoop_cons {d : Decryptor} {rest : List Byte} {d' : Decryptor}
    {m : List Byte} {n : Nat}
    (h : d.decrypt_next rest = .ok d' (some (m, n))) :
    d.readLoop rest =
      Decryptor.readLoop
        { d' with decrypted_payloads := d'.decrypted_payloads ++ [m] } (rest.drop n) := by
  conv_lhs => rw [Decryptor.readLoop]
  split
  case _ heq => rw [h] at heq; cases heq
  case _ heq => rw [h] at heq; injection heq with h1 h2; cases h2
  case _ heq =>
    rw [h] at heq
    injection heq with h1 h2
    injection h2 with h2
    cases h2
    rw [h1]

theorem read_none {d : Decryptor} {data : List Byte} (h : d.read_buffer = none) :
    d.read data = .panicked := by
  simp only [Decryptor.read, h]

theorem read_eq {d : Decryptor} {data rb : List Byte} (hrb : d.read_buffer = some rb) :
    d.read data =
      match ({ d with read_buffer := none }).readLoop (rb ++ data) with
      | .err d' e => .err d' e
      | .ok d' residue =>
        if residue.length > LN_MAX_PACKET_LENGTH then .panicked
        else .ok { d' with read_buffer := some residue } := by
  have hbuf : (if rb.isEmpty then data else rb ++ data) = rb ++ data := by
    cases rb <;> simp
  simp only [Decryptor.read, hrb, hbuf]

/-! Shape analysis: every result of `decryptBody` / `decrypt_next` arises from
one of the source's return points, with the corresponding state mutation. -/

theorem decryptBody_ok_shape {d : Decryptor} {buffer : List Byte} {L : Nat}
    {d' : Decryptor} {r : Option (List Byte × Nat)}
    (h : d.decryptBody buffer L = .ok d' r) :
    (buffer.length < 34 + L ∧ d' = { d with pending_message_length := some L } ∧ r = none) ∨
    (∃ msg, 34 + L ≤ buffer.length ∧
      chacha.decrypt d.receiving_key d.receiving_nonce []
        ((buffer.take (34 + L)).drop 18) = .ok msg ∧
      d' = ({ d with pending_message_length := none }).increment_nonce ∧
      r = some (msg, 34 + L)) := by
  by_cases hlt : buffer.length < 34 + L
  · left
    rw [decryptBody_stash hlt] at h
    injection h with h1 h2
    exact ⟨hlt, h1.symm, h2.symm⟩
  · right
    cases hdec : chacha.decrypt d.receiving_key d.receiving_nonce []
        ((buffer.take (34 + L)).drop 18) with
    | error e =>
      rw [decryptBody_err (by omega) hdec] at h
      exact DecryptNextResult.noConfusion h
    | ok msg =>
      rw [decryptBody_extract (by omega) hdec] at h
      injection h with h1 h2
      exact ⟨msg, by omega, rfl, h1.symm, h2.symm⟩

theorem decryptBody_err_shape {d : Decryptor} {buffer : List Byte} {L : Nat}
    {d' : Decryptor} {e : String}
    (h : d.decryptBody buffer L = .err d' e) :
    34 + L ≤ buffer.length ∧
    chacha.decrypt d.receiving_key d.receiving_nonce []
      ((buffer.take (34 + L)).drop 18) = .error e ∧
    d' = { d with pending_message_length := none } := by
  by_cases hlt : buffer.length < 34 + L
  · rw [decryptBody_stash hlt] at h
    exact DecryptNextResult.noConfusion h
  · cases hdec : chacha.decrypt d.receiving_key d.receiving_nonce []
        ((buffer.take (34 + L)).drop 18) with
    | error e2 =>
      rw [decryptBody_err (by omega) hdec] at h
      injection h with h1 h2
      exact ⟨by omega, h2 ▸ rfl, h1.symm⟩
    | ok msg =>
      rw [decryptBody_extract (by omega) hdec] at h
      exact DecryptNextResult.noConfusion h

theorem decrypt_next_ok_shape {d : Decryptor} {buffer : List Byte}
    {d' : Decryptor} {r : Option (List Byte × Nat)}
    (h : d.decrypt_next buffer = .ok d' r) :
    (d.pending_message_length = none ∧ buffer.length < 18 ∧ d' = d ∧ r = none) ∨
    (∃ L, d.pending_message_length = some L ∧ d.decryptBody buffer L = .ok d' r) ∨
    (∃ lb, d.pending_message_length = none ∧ 18 ≤ buffer.length ∧
      chacha.decrypt d.receiving_key d.receiving_nonce [] (buffer.take 18) = .ok lb ∧
      d.increment_nonce.decryptBody buffer (byte_utils.slice_to_be16 lb) = .ok d' r) := by
  cases hp : d.pending_message_length with
  | some L =>
    right; left
    exact ⟨L, rfl, (decrypt_next_pending hp).symm.trans h⟩
  | none =>
    by_cases hlt : buffer.length < 18
    · left
      rw [decrypt_next_short hp hlt] at h
      injection h with h1 h2
      exact ⟨rfl, hlt, h1.symm, h2.symm⟩
    · cases hdec : chacha.decrypt d.receiving_key d.receiving_nonce [] (buffer.take 18) with
      | error e =>
        rw [decrypt_next_header_err hp (by omega) hdec] at h
        exact DecryptNextResult.noConfusion h
      | ok lb =>
        right; right
        rw [decrypt_next_header_ok hp (by omega) hdec] at h
        exact ⟨lb, rfl, by omega, rfl, h⟩

theorem decrypt_next_err_shape {d : Decryptor} {buffer : List Byte}
    {d' : Decryptor} {e : String}
    (h : d.decrypt_next buffer = .err d' e) :
    (∃ L, d.pending_message_length = some L ∧ d.decryptBody buffer L = .err d' e) ∨
    (d.pending_message_length = none ∧ 18 ≤ buffer.length ∧
      chacha.decrypt d.receiving_key d.receiving_nonce [] (buffer.take 18) = .error e ∧
      d' = d) ∨
    (∃ lb, d.pending_message_length = none ∧ 18 ≤ buffer.length ∧
      chacha.decrypt d.receiving_key d.receiving_nonce [] (buffer.take 18) = .ok lb ∧
      d.increment_nonce.decryptBody buffer (byte_utils.slice_to_be16 lb) = .err d' e) := by
  cases hp : d.pending_message_length with
  | some L =>
    left
    exact ⟨L, rfl, (decrypt_next_pending hp).symm.trans h⟩
  | none =>
    by_cases hlt : buffer.length < 18
    · rw [decrypt_next_short hp hlt] at h
      exact DecryptNextResult.noConfusion h
    · cases hdec : chacha.decrypt d.receiving_key d.receiving_nonce [] (buffer.take 18) with
      | error e2 =>
        right; left
        rw [decrypt_next_header_err hp (by omega) hdec] at h
        injection h with h1 h2
        exact ⟨rfl, by omega, h2 ▸ rfl, h1.symm⟩
      | ok lb =>
        right; right
        rw [decrypt_next_header_ok hp (by omega) hdec] at h
        exact ⟨lb, rfl, by omega, rfl, h⟩

/-! Derived facts: consumed-byte bounds, field preservation, nonce bounds. -/

theorem decryptBody_consumed {d : Decryptor} {buffer : List Byte} {L : Nat}
    {d' : Decryptor} {m : List Byte} {n : Nat}
    (h : d.decryptBody buffer L = .ok d' (some (m, n))) :
    n = 34 + L ∧ 34 + L ≤ buffer.length := by
  rcases decryptBody_ok_shape h with ⟨_, _, hr⟩ | ⟨msg, hge, _, _, hr⟩
  · exact Option.noConfusion hr
  · injection hr with hr
    injection hr with hr1 hr2
    exact ⟨hr2, hge⟩

theorem decrypt_next_consumed {d : Decryptor} {buffer : List Byte}
    {d' : Decryptor} {m : List Byte} {n : Nat}
    (h : d.decrypt_next buffer = .ok d' (some (m, n))) :
    34 ≤ n ∧ n ≤ buffer.length := by
  rcases decrypt_next_ok_shape h with ⟨_, _, _, hr⟩ | ⟨L, _, hb⟩ | ⟨lb, _, _, _, hb⟩
  · exact Option.noConfusion hr
  · have := decryptBody_consumed hb
    omega
  · have := decryptBody_consumed hb
    omega

theorem decrypt_next_ok_rbq {d : Decryptor} {buffer : List Byte}
    {d' : Decryptor} {r : Option (List Byte × Nat)}
    (h : d.decrypt_next buffer = .ok d' r) :
    d'.read_buffer = d.read_buffer ∧ d'.decrypted_payloads = d.decrypted_payloads := by
  rcases decrypt_next_ok_shape h with ⟨_, _, hd, _⟩ | ⟨L, _, hb⟩ | ⟨lb, _, _, _, hb⟩
  · subst hd; exact ⟨rfl, rfl⟩
  · rcases decryptBody_ok_shape hb with ⟨_, hd, _⟩ | ⟨msg, _, _, hd, _⟩ <;>
      subst hd <;> exact ⟨rfl, rfl⟩
  · rcases decryptBody_ok_shape hb with ⟨_, hd, _⟩ | ⟨msg, _, _, hd, _⟩ <;>
      subst hd <;> exact ⟨rfl, rfl⟩

theorem decrypt_next_err_rbq {d : Decryptor} {buffer : List Byte}
    {d' : Decryptor} {e : String}
    (h : d.decrypt_next buffer = .err d' e) :
    d'.read_buffer = d.read_buffer ∧ d'.decrypted_payloads = d.decrypted_payloads := by
  rcases decrypt_next_err_shape h with ⟨L, _, hb⟩ | ⟨_, _, _, hd⟩ | ⟨lb, _, _, _, hb⟩
  · rcases decryptBody_err_shape hb with ⟨_, _, hd⟩; subst hd; exact ⟨rfl, rfl⟩
  · subst hd; exact ⟨rfl, rfl⟩
  · rcases decryptBody_err_shape hb with ⟨_, _, hd⟩; subst hd; exact ⟨rfl, rfl⟩

theorem nonceStep_lt {n : Nat} (h : n < 1000) : nonceStep n < 1000 := by
  have hm : (n + 1) % 2 ^ 32 = n + 1 := Nat.mod_eq_of_lt (by omega)
  simp only [nonceStep, hm, key_rotation_index_eq]
  split <;> omega

theorem increment_nonce_nonce_d (d : Decryptor) :
    d.increment_nonce.receiving_nonce = nonceStep d.receiving_nonce := by
  simp only [Decryptor.increment_nonce, increment_nonce_helper, nonceStep]
  split <;> rfl

theorem increment_nonce_nonce_e (e : Encryptor) :
    e.increment_nonce.sending_nonce = nonceStep e.sending_nonce := by
  simp only [Encryptor.increment_nonce, increment_nonce_helper, nonceStep]
  split <;> rfl

theorem decryptBody_ok_nonce {d : Decryptor} {buffer : List Byte} {L : Nat}
    {d' : Decryptor} {r : Option (List Byte × Nat)}
    (h : d.decryptBody buffer L = .ok d' r) :
    d'.receiving_nonce = d.receiving_nonce ∨
    d'.receiving_nonce = nonceStep d.receiving_nonce := by
  rcases decryptBody_ok_shape h with ⟨_, hd, _⟩ | ⟨msg, _, _, hd, _⟩
  · subst hd; exact Or.inl rfl
  · subst hd
    exact Or.inr (increment_nonce_nonce_d _)

theorem decrypt_next_ok_nonce_lt {d : Decryptor} {buffer : List Byte}
    {d' : Decryptor} {r : Option (List Byte × Nat)}
    (h : d.decrypt_next buffer = .ok d' r) (hn : d.receiving_nonce < 1000) :
    d'.receiving_nonce < 1000 := by
  rcases decrypt_next_ok_shape h with ⟨_, _, hd, _⟩ | ⟨L, _, hb⟩ | ⟨lb, _, _, _, hb⟩
  · subst hd; exact hn
  · rcases decryptBody_ok_nonce hb with hq | hq <;> rw [hq]
    · exact hn
    · exact nonceStep_lt hn
  · have hbase : d.increment_nonce.receiving_nonce < 1000 := by
      rw [increment_nonce_nonce_d]; exact nonceStep_lt hn
    rcases decryptBody_ok_nonce hb with hq | hq <;> rw [hq]
    · exact hbase
    · exact nonceStep_lt hbase

theorem decrypt_next_err_nonce_lt {d : Decryptor} {buffer : List Byte}
    {d' : Decryptor} {e : String}
    (h : d.decrypt_next buffer = .err d' e) (hn : d.receiving_nonce < 1000) :
    d'.receiving_nonce < 1000 := by
  rcases decrypt_next_err_shape h with ⟨L, _, hb⟩ | ⟨_, _, _, hd⟩ | ⟨lb, _, _, _, hb⟩
  · rcases decryptBody_err_shape hb with ⟨_, _, hd⟩; subst hd; exact hn
  · subst hd; exact hn
  · rcases decryptBody_err_shape hb with ⟨_, _, hd⟩; subst hd
    rw [show ({ d.increment_nonce with pending_message_length := none } : Decryptor).receiving_nonce
        = d.increment_nonce.receiving_nonce from rfl, increment_nonce_nonce_d]
    exact nonceStep_lt hn

theorem decrypt_next_break_bound {d : Decryptor} {rest : List Byte} {d' : Decryptor}
    (hpg : pendingGood d) (h : d.decrypt_next rest = .ok d' none) :
    rest.length ≤ 65568 ∧ pendingGood d' := by
  rcases decrypt_next_ok_shape h with ⟨hp, hlt, hd, _⟩ | ⟨L, hp, hb⟩ | ⟨lb, hp, _, _, hb⟩
  · subst hd
    exact ⟨by omega, hpg⟩
  · have hL : L ≤ 65535 := by
      simp only [pendingGood, hp] at hpg
      exact hpg
    rcases decryptBody_ok_shape hb with ⟨hlt, hd, _⟩ | ⟨msg, _, _, _, hr⟩
    · subst hd
      refine ⟨by omega, ?_⟩
      simp only [pendingGood]
      exact hL
    · exact Option.noConfusion hr
  · have hL : byte_utils.slice_to_be16 lb ≤ 65535 := slice_to_be16_le lb
    rcases decryptBody_ok_shape hb with ⟨hlt, hd, _⟩ | ⟨msg, _, _, _, hr⟩
    · subst hd
      refine ⟨by omega, ?_⟩
      simp only [pendingGood]
      exact hL
    · exact Option.noConfusion hr

theorem decrypt_next_ok_pendingGood {d : Decryptor} {buffer : List Byte}
    {d' : Decryptor} {r : Option (List Byte × Nat)}
    (hpg : pendingGood d) (h : d.decrypt_next buffer = .ok d' r) :
    pendingGood d' := by
  cases r with
  | none => exact (decrypt_next_break_bound hpg h).2
  | some mn =>
    rcases decrypt_next_ok_shape h with ⟨_, _, _, hr⟩ | ⟨L, _, hb⟩ | ⟨lb, _, _, _, hb⟩
    · exact Option.noConfusion hr
    · rcases decryptBody_ok_shape hb with ⟨_, _, hr⟩ | ⟨msg, _, _, hd, _⟩
      · exact Option.noConfusion hr
      · subst hd; simp [pendingGood, Decryptor.increment_nonce]
    · rcases decryptBody_ok_shape hb with ⟨_, _, hr⟩ | ⟨msg, _, _, hd, _⟩
      · exact Option.noConfusion hr
      · subst hd; simp [pendingGood, Decryptor.increment_nonce]

theorem Decryptor.eta_read_buffer {d : Decryptor} {q : Option (List Byte)}
    (h : d.read_buffer = q) :
    { d with read_buffer := q } = d := by
  cases d
  simp only [Decryptor.mk.injEq, and_true, true_and]
  exact h.symm ▸ rfl

/-! Appending more input does not change an already-determined outcome of
`decrypt_next`, and a break commutes with continuing on extended input. -/

theorem decryptBody_extend_some {d : Decryptor} {s b : List Byte} {L : Nat}
    {d' : Decryptor} {m : List Byte} {n : Nat}
    (h : d.decryptBody s L = .ok d' (some (m, n))) :
    d.decryptBody (s ++ b) L = .ok d' (some (m, n)) := by
  rcases decryptBody_ok_shape h with ⟨_, _, hr⟩ | ⟨msg, hge, hdec, hd, hr⟩
  · exact Option.noConfusion hr
  · injection hr with hr
    injection hr with hr1 hr2
    subst hd
    have htake : (s ++ b).take (34 + L) = s.take (34 + L) :=
      List.take_append_of_le_length hge
    rw [decryptBody_extract (by simp only [List.length_append]; omega)
      (by rw [htake]; exact hdec)]
    rw [hr1, hr2]

theorem decryptBody_extend_err {d : Decryptor} {s b : List Byte} {L : Nat}
    {d' : Decryptor} {e : String}
    (h : d.decryptBody s L = .err d' e) :
    d.decryptBody (s ++ b) L = .err d' e := by
  obtain ⟨hge, hdec, hd⟩ := decryptBody_err_shape h
  subst hd
  have htake : (s ++ b).take (34 + L) = s.take (34 + L) :=
    List.take_append_of_le_length hge
  rw [decryptBody_err (by simp only [List.length_append]; omega)
    (by rw [htake]; exact hdec)]

theorem decrypt_next_extend_some {d : Decryptor} {s b : List Byte}
    {d' : Decryptor} {m : List Byte} {n : Nat}
    (h : d.decrypt_next s = .ok d' (some (m, n))) :
    d.decrypt_next (s ++ b) = .ok d' (some (m, n)) := by
  rcases decrypt_next_ok_shape h with ⟨_, _, _, hr⟩ | ⟨L, hp, hb⟩ | ⟨lb, hp, hlen, hdec, hb⟩
  · exact Option.noConfusion hr
  · rw [decrypt_next_pending hp]
    exact decryptBody_extend_some hb
  · have htake : (s ++ b).take 18 = s.take 18 := List.take_append_of_le_length hlen
    rw [decrypt_next_header_ok hp (by simp only [List.length_append]; omega)
      (by rw [htake]; exact hdec)]
    exact decryptBody_extend_some hb

theorem decrypt_next_extend_err {d : Decryptor} {s b : List Byte}
    {d' : Decryptor} {e : String}
    (h : d.decrypt_next s = .err d' e) :
    d.decrypt_next (s ++ b) = .err d' e := by
  rcases decrypt_next_err_shape h with ⟨L, hp, hb⟩ | ⟨hp, hlen, hdec, hd⟩ | ⟨lb, hp, hlen, hdec, hb⟩
  · rw [decrypt_next_pending hp]
    exact decryptBody_extend_err hb
  · subst hd
    have htake : (s ++ b).take 18 = s.take 18 := List.take_append_of_le_length hlen
    rw [decrypt_next_header_err hp (by simp only [List.length_append]; omega)
      (by rw [htake]; exact hdec)]
  · have htake : (s ++ b).take 18 = s.take 18 := List.take_append_of_le_length hlen
    rw [decrypt_next_header_ok hp (by simp only [List.length_append]; omega)
      (by rw [htake]; exact hdec)]
    exact decryptBody_extend_err hb

theorem decrypt_next_extend_break {d : Decryptor} {s b : List Byte} {d' : Decryptor}
    (h : d.decrypt_next s = .ok d' none) :
    d.decrypt_next (s ++ b) = d'.decrypt_next (s ++ b) := by
  rcases decrypt_next_ok_shape h with ⟨hp, hlt, hd, _⟩ | ⟨L, hp, hb⟩ | ⟨lb, hp, hlen, hdec, hb⟩
  · subst hd; rfl
  · rcases decryptBody_ok_shape hb with ⟨hlt, hd, _⟩ | ⟨msg, _, _, _, hr⟩
    · subst hd
      rw [Decryptor.eta_pending hp]
    · exact Option.noConfusion hr
  · rcases decryptBody_ok_shape hb with ⟨hlt2, hd, _⟩ | ⟨msg, _, _, _, hr⟩
    · subst hd
      have htake : (s ++ b).take 18 = s.take 18 := List.take_append_of_le_length hlen
      rw [decrypt_next_header_ok hp (by simp only [List.length_append]; omega)
        (by rw [htake]; exact hdec)]
      rw [decrypt_next_pending
        (show ({ d.increment_nonce with
          pending_message_length := some (byte_utils.slice_to_be16 lb) } :
            Decryptor).pending_message_length = some (byte_utils.slice_to_be16 lb) from rfl)]
      exact (decryptBody_pending_irrel d.increment_nonce
        (some (byte_utils.slice_to_be16 lb)) (s ++ b) (byte_utils.slice_to_be16 lb)).symm
    · exact Option.noConfusion hr

/-! The extraction loop on extended input factors through the loop on the
original input: the loop is a stream transducer. -/

theorem readLoop_congr {d d2 : Decryptor} {X : List Byte}
    (h : d.decrypt_next X = d2.decrypt_next X) : d.readLoop X = d2.readLoop X := by
  cases v : d2.decrypt_next X with
  | err d' e => rw [readLoop_err (h.trans v), readLoop_err v]
  | ok d' r =>
    cases r with
    | none => rw [readLoop_break (h.trans v), readLoop_break v]
    | some mn =>
      obtain ⟨m, n⟩ := mn
      rw [readLoop_cons (h.trans v), readLoop_cons v]

theorem readLoop_append_aux (b : List Byte) :
    ∀ (N : Nat) (s : List Byte), s.length < N → ∀ (d : Decryptor),
      (∀ d1 r1, d.readLoop s = .ok d1 r1 → d.readLoop (s ++ b) = d1.readLoop (r1 ++ b)) ∧
      (∀ d1 e, d.readLoop s = .err d1 e → d.readLoop (s ++ b) = .err d1 e) := by
  intro N
  induction N with
  | zero => intro s hs; omega
  | succ N ih =>
    intro s hs d
    constructor
    · intro d1 r1 h
      cases v : d.decrypt_next s with
      | err de e =>
        rw [readLoop_err v] at h
        exact LoopResult.noConfusion h
      | ok de r =>
        cases r with
        | none =>
          rw [readLoop_break v] at h
          injection h with h1 h2
          subst h1
          subst h2
          exact readLoop_congr (decrypt_next_extend_break v)
        | some mn =>
          obtain ⟨m, n⟩ := mn
          have hc := decrypt_next_consumed v
          rw [readLoop_cons v] at h
          rw [readLoop_cons (decrypt_next_extend_some v)]
          rw [List.drop_append_of_le_length hc.2]
          refine (ih (s.drop n) ?_ _).1 d1 r1 h
          rw [List.length_drop]
          omega
    · intro d1 e h
      cases v : d.decrypt_next s with
      | err de e2 =>
        rw [readLoop_err v] at h
        injection h with h1 h2
        subst h1
        subst h2
        exact readLoop_err (decrypt_next_extend_err v)
      | ok de r =>
        cases r with
        | none =>
          rw [readLoop_break v] at h
          exact LoopResult.noConfusion h
        | some mn =>
          obtain ⟨m, n⟩ := mn
          have hc := decrypt_next_consumed v
          rw [readLoop_cons v] at h
          rw [readLoop_cons (decrypt_next_extend_some v)]
          rw [List.drop_append_of_le_length hc.2]
          refine (ih (s.drop n) ?_ _).2 d1 e h
          rw [List.length_drop]
          omega

theorem readLoop_append_ok {d : Decryptor} {s : List Byte} (b : List Byte)
    {d1 : Decryptor} {r1 : List Byte}
    (h : d.readLoop s = .ok d1 r1) : d.readLoop (s ++ b) = d1.readLoop (r1 ++ b) :=
  (readLoop_append_aux b (s.length + 1) s (by omega) d).1 d1 r1 h

theorem readLoop_append_err {d : Decryptor} {s : List Byte} (b : List Byte)
    {d1 : Decryptor} {e : String}
    (h : d.readLoop s = .err d1 e) : d.readLoop (s ++ b) = .err d1 e :=
  (readLoop_append_aux b (s.length + 1) s (by omega) d).2 d1 e h

/-! Loop invariants: the read buffer field is untouched by the loop, a
well-formed pending length stays well-formed, the exit residue is at most
65568 bytes, and a nonce below 1000 stays below 1000. -/

theorem readLoop_inv_aux :
    ∀ (N : Nat) (s : List Byte), s.length < N → ∀ (d : Decryptor),
      (∀ d1 r1, d.readLoop s = .ok d1 r1 →
        d1.read_buffer = d.read_buffer ∧
        (pendingGood d → pendingGood d1 ∧ r1.length ≤ 65568) ∧
        (d.receiving_nonce < 1000 → d1.receiving_nonce < 1000)) ∧
      (∀ d1 e, d.readLoop s = .err d1 e →
        d1.read_buffer = d.read_buffer ∧
        (d.receiving_nonce < 1000 → d1.receiving_nonce < 1000)) := by
  intro N
  induction N with
  | zero => intro s hs; omega
  | succ N ih =>
    intro s hs d
    constructor
    · intro d1 r1 h
      cases v : d.decrypt_next s with
      | err de e =>
        rw [readLoop_err v] at h
        exact LoopResult.noConfusion h
      | ok de r =>
        cases r with
        | none =>
          rw [readLoop_break v] at h
          injection h with h1 h2
          subst h1
          subst h2
          refine ⟨(decrypt_next_ok_rbq v).1, ?_, decrypt_next_ok_nonce_lt v⟩
          intro hpg
          have := decrypt_next_break_bound hpg v
          exact ⟨this.2, this.1⟩
        | some mn =>
          obtain ⟨m, n⟩ := mn
          have hc := decrypt_next_consumed v
          rw [readLoop_cons v] at h
          have hrec := (ih (s.drop n) (by rw [List.length_drop]; omega) _).1 d1 r1 h
          obtain ⟨hrb, hpg1, hnon⟩ := hrec
          refine ⟨hrb.trans (decrypt_next_ok_rbq v).1, ?_, ?_⟩
          · intro hpg
            have hde := decrypt_next_ok_pendingGood hpg v
            exact hpg1 hde
          · intro hlt
            have hde := decrypt_next_ok_nonce_lt v hlt
            exact hnon hde
    · intro d1 e h
      cases v : d.decrypt_next s with
      | err de e2 =>
        rw [readLoop_err v] at h
        injection h with h1 h2
        subst h1
        subst h2
        exact ⟨(decrypt_next_err_rbq v).1, decrypt_next_err_nonce_lt v⟩
      | ok de r =>
        cases r with
        | none =>
          rw [readLoop_break v] at h
          exact LoopResult.noConfusion h
        | some mn =>
          obtain ⟨m, n⟩ := mn
          have hc := decrypt_next_consumed v
          rw [readLoop_cons v] at h
          have hrec := (ih (s.drop n) (by rw [List.length_drop]; omega) _).2 d1 e h
          obtain ⟨hrb, hnon⟩ := hrec
          refine ⟨hrb.trans (decrypt_next_ok_rbq v).1, ?_⟩
          intro hlt
          have hde := decrypt_next_ok_nonce_lt v hlt
          exact hnon hde

theorem readLoop_ok_inv {d : Decryptor} {s : List Byte} {d1 : Decryptor} {r1 : List Byte}
    (h : d.readLoop s = .ok d1 r1) :
    d1.read_buffer = d.read_buffer ∧
    (pendingGood d → pendingGood d1 ∧ r1.length ≤ 65568) ∧
    (d.receiving_nonce < 1000 → d1.receiving_nonce < 1000) :=
  (readLoop_inv_aux (s.length + 1) s (by omega) d).1 d1 r1 h

theorem readLoop_err_inv {d : Decryptor} {s : List Byte} {d1 : Decryptor} {e : String}
    (h : d.readLoop s = .err d1 e) :
    d1.read_buffer = d.read_buffer ∧
    (d.receiving_nonce < 1000 → d1.receiving_nonce < 1000) :=
  (readLoop_inv_aux (s.length + 1) s (by omega) d).2 d1 e h

/-! Read-level helpers: relate `read` to its extraction loop. -/

theorem read_of_readLoop_ok {d : Decryptor} {data rb : List Byte}
    {d1 : Decryptor} {r1 : List Byte}
    (hrb : d.read_buffer = some rb)
    (hloop : ({ d with read_buffer := none }).readLoop (rb ++ data) = .ok d1 r1)
    (hres : r1.length ≤ 65569) :
    d.read data = .ok { d1 with read_buffer := some r1 } := by
  rw [read_eq hrb, hloop]
  show (if r1.length > LN_MAX_PACKET_LENGTH then ReadResult.panicked
    else ReadResult.ok { d1 with read_buffer := some r1 }) =
    ReadResult.ok { d1 with read_buffer := some r1 }
  rw [if_neg (by rw [max_packet_length_eq]; omega)]

theorem read_panicked_of_oversize {d : Decryptor} {data rb : List Byte}
    {d1 : Decryptor} {r1 : List Byte}
    (hrb : d.read_buffer = some rb)
    (hloop : ({ d with read_buffer := none }).readLoop (rb ++ data) = .ok d1 r1)
    (hres : 65569 < r1.length) :
    d.read data = .panicked := by
  rw [read_eq hrb, hloop]
  show (if r1.length > LN_MAX_PACKET_LENGTH then ReadResult.panicked
    else ReadResult.ok { d1 with read_buffer := some r1 }) = ReadResult.panicked
  rw [if_pos (by rw [max_packet_length_eq]; omega)]

theorem read_err_of_readLoop_err {d : Decryptor} {data rb : List Byte}
    {d1 : Decryptor} {e : String}
    (hrb : d.read_buffer = some rb)
    (hloop : ({ d with read_buffer := none }).readLoop (rb ++ data) = .err d1 e) :
    d.read data = .err d1 e := by
  rw [read_eq hrb, hloop]

/-! Single-frame round-trip: an `encrypt_buf` frame decodes to its payload on
a decryptor holding the same `(nonce, chaining_key, key)` triple. -/

theorem encrypt_buf_eq {e : Encryptor} {p : List Byte} (hp : p.length ≤ LN_MAX_MSG_LEN) :
    e.encrypt_buf p = some (e.increment_nonce.increment_nonce,
      chacha.encrypt e.sending_key e.sending_nonce []
        (byte_utils.be16_to_array (p.length % 2 ^ 16)) ++
      chacha.encrypt e.increment_nonce.sending_key e.increment_nonce.sending_nonce [] p) := by
  simp only [Encryptor.encrypt_buf, if_neg (by omega : ¬ p.length > LN_MAX_MSG_LEN)]

theorem length_be16_to_array (v : Nat) : (byte_utils.be16_to_array v).length = 2 := rfl

theorem frame_header_length (k : SymmetricKey) (n : Nat) (v : Nat) :
    (chacha.encrypt k n [] (byte_utils.be16_to_array v)).length = 18 := by
  rw [length_chacha_encrypt, length_be16_to_array]

theorem decrypt_next_frame (k ck : SymmetricKey) (n : Nat) (rb : Option (List Byte))
    (q : List (List Byte)) (p rest : List Byte) (hp : p.length ≤ 65535) :
    Decryptor.decrypt_next ⟨k, ck, n, none, rb, q⟩
      ((chacha.encrypt k n [] (byte_utils.be16_to_array (p.length % 2 ^ 16)) ++
        chacha.encrypt (⟨k, ck, n, none, rb, q⟩ : Decryptor).increment_nonce.receiving_key
          (⟨k, ck, n, none, rb, q⟩ : Decryptor).increment_nonce.receiving_nonce [] p) ++ rest) =
    .ok ({ (⟨k, ck, n, none, rb, q⟩ : Decryptor).increment_nonce with
            pending_message_length := none }).increment_nonce
      (some (p, 34 + p.length)) := by
  set d : Decryptor := ⟨k, ck, n, none, rb, q⟩ with hd
  set H : List Byte := chacha.encrypt k n [] (byte_utils.be16_to_array (p.length % 2 ^ 16))
    with hH
  set B : List Byte :=
    chacha.encrypt d.increment_nonce.receiving_key d.increment_nonce.receiving_nonce [] p
    with hB
  have hHlen : H.length = 18 := frame_header_length k n _
  have hBlen : B.length = p.length + 16 := length_chacha_encrypt _ _ _ _
  have hHB : (H ++ B).length = 34 + p.length := by
    rw [List.length_append, hHlen, hBlen]; omega
  have htake18 : ((H ++ B) ++ rest).take 18 = H := by
    rw [List.take_append_of_le_length (by omega),
      List.take_append_of_le_length (by omega), List.take_of_length_le (by omega)]
  have hhdr : chacha.decrypt d.receiving_key d.receiving_nonce []
      (((H ++ B) ++ rest).take 18) = .ok (byte_utils.be16_to_array (p.length % 2 ^ 16)) := by
    rw [htake18, hH]
    exact chacha_decrypt_encrypt k n [] _
  rw [decrypt_next_header_ok rfl (by rw [List.length_append, hHB]; omega) hhdr]
  have hL : byte_utils.slice_to_be16 (byte_utils.be16_to_array (p.length % 2 ^ 16)) =
      p.length := by
    rw [slice_to_be16_be16_to_array]
    have h16 : p.length < 2 ^ 16 := by norm_num; omega
    rw [Nat.mod_eq_of_lt h16, Nat.mod_eq_of_lt h16]
  rw [hL]
  have htakeHB : ((H ++ B) ++ rest).take (34 + p.length) = H ++ B := by
    rw [show 34 + p.length = (H ++ B).length from hHB.symm, List.take_left]
  have hbody : chacha.decrypt d.increment_nonce.receiving_key d.increment_nonce.receiving_nonce
      [] ((((H ++ B) ++ rest).take (34 + p.length)).drop 18) = .ok p := by
    rw [htakeHB, show (18 : Nat) = H.length from hHlen.symm, List.drop_left, hB]
    exact chacha_decrypt_encrypt _ _ [] p
  rw [decryptBody_extract (by rw [List.length_append, hHB]; omega) hbody]

theorem readLoop_frame (k ck : SymmetricKey) (n : Nat) (q : List (List Byte))
    (p : List Byte) (hp : p.length ≤ 65535) :
    Decryptor.readLoop ⟨k, ck, n, none, none, q⟩
      (chacha.encrypt k n [] (byte_utils.be16_to_array (p.length % 2 ^ 16)) ++
       chacha.encrypt (⟨k, ck, n, none, none, q⟩ : Decryptor).increment_nonce.receiving_key
         (⟨k, ck, n, none, none, q⟩ : Decryptor).increment_nonce.receiving_nonce [] p) =
    .ok { ({ (⟨k, ck, n, none, none, q⟩ : Decryptor).increment_nonce with
              pending_message_length := none }).increment_nonce with
          decrypted_payloads := q ++ [p] } [] := by
  have hfr := decrypt_next_frame k ck n none q p [] hp
  rw [List.append_nil] at hfr
  rw [readLoop_cons hfr]
  have hlen : (chacha.encrypt k n [] (byte_utils.be16_to_array (p.length % 2 ^ 16)) ++
      chacha.encrypt (⟨k, ck, n, none, none, q⟩ : Decryptor).increment_nonce.receiving_key
        (⟨k, ck, n, none, none, q⟩ : Decryptor).increment_nonce.receiving_nonce [] p).length =
      34 + p.length := by
    rw [List.length_append, frame_header_length, length_chacha_encrypt]; omega
  rw [List.drop_eq_nil_of_le (by rw [hlen])]
  exact readLoop_break (decrypt_next_short rfl (by simp))

theorem read_frame (k ck : SymmetricKey) (n : Nat) (p : List Byte) (hp : p.length ≤ 65535) :
    Decryptor.read ⟨k, ck, n, none, some [], []⟩
      (chacha.encrypt k n [] (byte_utils.be16_to_array (p.length % 2 ^ 16)) ++
       chacha.encrypt (⟨k, ck, n⟩ : Encryptor).increment_nonce.sending_key
         (⟨k, ck, n⟩ : Encryptor).increment_nonce.sending_nonce [] p) =
    .ok { ({ (⟨k, ck, n, none, none, ([] : List (List Byte))⟩ : Decryptor).increment_nonce with
            pending_message_length := none }).increment_nonce with
          read_buffer := some [], decrypted_payloads := [p] } := by
  have hloop : ({ (⟨k, ck, n, none, some [], []⟩ : Decryptor) with
        read_buffer := none }).readLoop
      (([] : List Byte) ++
        (chacha.encrypt k n [] (byte_utils.be16_to_array (p.length % 2 ^ 16)) ++
         chacha.encrypt (⟨k, ck, n⟩ : Encryptor).increment_nonce.sending_key
           (⟨k, ck, n⟩ : Encryptor).increment_nonce.sending_nonce [] p)) =
      .ok { ({ (⟨k, ck, n, none, none, ([] : List (List Byte))⟩ : Decryptor).increment_nonce with
              pending_message_length := none }).increment_nonce with
            decrypted_payloads := ([] : List (List Byte)) ++ [p] } [] :=
    readLoop_frame k ck n [] p hp
  exact read_of_readLoop_ok rfl hloop (by simp)

theorem next_of_payloads {d : Decryptor} {p : List Byte} {rest : List (List Byte)}
    (h : d.decrypted_payloads = p :: rest) :
    d.next = ({ d with decrypted_payloads := rest }, some p) := by
  simp only [Decryptor.next, h]

/-! Iteration of the nonce counter and of whole-`encrypt_buf` calls. -/

theorem cipherStep_fst (s : Nat × SymmetricKey × SymmetricKey) :
    (cipherStep s).1 = nonceStep s.1 := by
  simp only [cipherStep, increment_nonce_helper, nonceStep]
  split <;> rfl

theorem nonceStep_mod (m : Nat) : nonceStep (m % 1000) = (m + 1) % 1000 := by
  have h1 : m % 1000 < 1000 := Nat.mod_lt _ (by omega)
  have h2 : (m % 1000 + 1) % 2 ^ 32 = m % 1000 + 1 := Nat.mod_eq_of_lt (by omega)
  simp only [nonceStep, h2, key_rotation_index_eq]
  split
  · omega
  · omega

theorem encrypt_buf_state {e : Encryptor} {p : List Byte} {e' : Encryptor} {c : List Byte}
    (h : e.encrypt_buf p = some (e', c)) :
    e' = e.increment_nonce.increment_nonce := by
  by_cases hp : p.length ≤ LN_MAX_MSG_LEN
  · rw [encrypt_buf_eq hp] at h
    injection h with h
    injection h with h1 h2
    exact h1.symm
  · simp only [Encryptor.encrypt_buf, if_pos (by omega : p.length > LN_MAX_MSG_LEN)] at h
    exact Option.noConfusion h

theorem encIter_succ (e : Encryptor) (m : Nat) :
    encIter e (m + 1) = (encIter e m).increment_nonce.increment_nonce := by
  simp only [encIter]
  rw [encrypt_buf_eq (by simp [max_msg_len_eq] : ([] : List Byte).length ≤ LN_MAX_MSG_LEN)]

theorem encIter_nonce {e : Encryptor} (h0 : e.sending_nonce = 0) :
    ∀ N, (encIter e N).sending_nonce = 2 * N % 1000 := by
  intro N
  induction N with
  | zero => simpa [encIter] using h0
  | succ N ih =>
    rw [encIter_succ, increment_nonce_nonce_e, increment_nonce_nonce_e, ih,
      nonceStep_mod, nonceStep_mod]
    omega

theorem cipherStep_iterate_lt (ck k : SymmetricKey) :
    ∀ i, i ≤ 999 → cipherStep^[i] (0, ck, k) = (i, ck, k) := by
  intro i
  induction i with
  | zero => intro _; rfl
  | succ i ih =>
    intro h
    rw [Function.iterate_succ_apply', ih (by omega)]
    simp only [cipherStep, increment_nonce_helper, key_rotation_index_eq]
    rw [Nat.mod_eq_of_lt (by omega), if_neg (by omega)]

theorem cipherStep_iterate_1000 (ck k : SymmetricKey) :
    cipherStep^[1000] (0, ck, k) =
      (0, (hkdf5869rfc.derive ck k).1, (hkdf5869rfc.derive ck k).2) := by
  rw [show (1000 : Nat) = 999 + 1 from rfl, Function.iterate_succ_apply',
    cipherStep_iterate_lt ck k 999 le_rfl]
  simp only [cipherStep, increment_nonce_helper, key_rotation_index_eq]
  norm_num

/-! ## Claim C1 -/

/-- C1: for every payload `p` with `|p| ≤ 65535` bytes, if an `Encryptor` and a
`Decryptor` are created with matching keys (the encryptor's sending key equals
the decryptor's receiving key, same chaining key) and have processed the same
number of messages (same `(nonce, chaining_key, key)` triple `(n, ck, k)`),
then passing `Encryptor::encrypt_buf(p)` to `Decryptor::read` and taking the
next queued payload yields exactly `p`. -/
theorem c1_encrypt_decrypt_roundtrip (k ck : SymmetricKey) (n : Nat) (p : List Byte)
    (hp : p.length ≤ 65535) :
    ∃ (e' : Encryptor) (c : List Byte) (d' : Decryptor),
      Encryptor.encrypt_buf ⟨k, ck, n⟩ p = some (e', c) ∧
      Decryptor.read ⟨k, ck, n, none, some [], []⟩ c = .ok d' ∧
      (d'.next).2 = some p := by
  refine ⟨_, _, _, encrypt_buf_eq (by rw [max_msg_len_eq]; exact hp), read_frame k ck n p hp, ?_⟩
  rw [next_of_payloads rfl]

/-- Witness for C1 at a concrete input: payload `[1, 2, 3]` with concrete keys
and nonce 7. -/
theorem c1_witness :
    ([1, 2, 3] : List Byte).length ≤ 65535 ∧
    ∃ (e' : Encryptor) (c : List Byte) (d' : Decryptor),
      Encryptor.encrypt_buf ⟨List.replicate 32 7, List.replicate 32 9, 7⟩ [1, 2, 3] =
        some (e', c) ∧
      Decryptor.read ⟨List.replicate 32 7, List.replicate 32 9, 7, none, some [], []⟩ c =
        .ok d' ∧
      (d'.next).2 = some [1, 2, 3] :=
  ⟨by decide,
   c1_encrypt_decrypt_roundtrip (List.replicate 32 7) (List.replicate 32 9) 7 [1, 2, 3]
     (by decide)⟩

/-! ## Claim C3 -/

/-- C3: after every successful AEAD operation the owning direction's nonce is
incremented by exactly 1, and exactly when the incremented nonce equals 1000
(`KEY_ROTATION_INDEX`) the chaining key and key are replaced by the two HKDF
outputs derived from `(chaining_key, key)` and the nonce is reset to 0; each
`encrypt_buf` call advances the sending state by two such steps, and after
exactly 1000 AEAD operations the state holds the rotated key (while after 999
it still holds the original), so the next operation uses the rotated key. -/
theorem c3_increment_and_rotate :
    (∀ (n : Nat) (ck k : SymmetricKey), n + 1 < 2 ^ 32 →
      increment_nonce_helper n ck k =
        if n + 1 = KEY_ROTATION_INDEX
        then (0, (hkdf5869rfc.derive ck k).1, (hkdf5869rfc.derive ck k).2)
        else (n + 1, ck, k)) ∧
    (∀ (e : Encryptor) (p : List Byte) (e' : Encryptor) (c : List Byte),
      e.encrypt_buf p = some (e', c) → e'.triple = cipherStep (cipherStep e.triple)) ∧
    (∀ ck k : SymmetricKey,
      cipherStep^[999] (0, ck, k) = (999, ck, k) ∧
      cipherStep^[1000] (0, ck, k) =
        (0, (hkdf5869rfc.derive ck k).1, (hkdf5869rfc.derive ck k).2)) := by
  refine ⟨?_, ?_, ?_⟩
  · intro n ck k h
    simp only [increment_nonce_helper, Nat.mod_eq_of_lt h]
  · intro e p e' c h
    rw [encrypt_buf_state h, enc_increment_nonce_triple, enc_increment_nonce_triple]
  · intro ck k
    exact ⟨cipherStep_iterate_lt ck k 999 le_rfl, cipherStep_iterate_1000 ck k⟩

/-- Witness for C3 at concrete inputs: nonce 5 with concrete keys (no
rotation), and a concrete `encrypt_buf` call advancing the state two steps. -/
theorem c3_witness :
    5 + 1 < 2 ^ 32 ∧
    increment_nonce_helper 5 (List.replicate 32 4) (List.replicate 32 6) =
      (6, List.replicate 32 4, List.replicate 32 6) ∧
    ((⟨List.replicate 32 6, List.replicate 32 4, 0⟩ : Encryptor).increment_nonce.increment_nonce).triple =
      cipherStep (cipherStep (⟨List.replicate 32 6, List.replicate 32 4, 0⟩ : Encryptor).triple) :=
  ⟨by decide,
   c3_increment_and_rotate.1 5 (List.replicate 32 4) (List.replicate 32 6) (by decide),
   c3_increment_and_rotate.2.1 ⟨List.replicate 32 6, List.replicate 32 4, 0⟩ [] _ _
     (encrypt_buf_eq (by decide))⟩

/-! ## Claim C7 -/

/-- C7: with no pending length, `decrypt_next` on a slice shorter than 18
bytes returns `(None, 0)` with the decryptor (key, chaining key, nonce and
all) unchanged; once the length header has been decrypted to `L` — whether the
pending length is already stored, or the header is decrypted in this very call —
a slice shorter than `18 + L + 16` yields `(None, 0)` with
`pending_message_length = some L` and exactly the one nonce consumed by the
length header. -/
theorem c7_decrypt_next_short_inputs (d : Decryptor) (buffer : List Byte) :
    (d.pending_message_length = none → buffer.length < 18 →
      d.decrypt_next buffer = .ok d none) ∧
    (∀ L, d.pending_message_length = some L → buffer.length < 18 + L + 16 →
      d.decrypt_next buffer = .ok d none) ∧
    (∀ lb, d.pending_message_length = none → 18 ≤ buffer.length →
      chacha.decrypt d.receiving_key d.receiving_nonce [] (buffer.take 18) = .ok lb →
      buffer.length < 18 + byte_utils.slice_to_be16 lb + 16 →
      d.decrypt_next buffer =
        .ok { d.increment_nonce with
              pending_message_length := some (byte_utils.slice_to_be16 lb) } none) := by
  refine ⟨fun hp h => decrypt_next_short hp h, ?_, ?_⟩
  · intro L hp hlen
    rw [decrypt_next_pending hp, decryptBody_stash (by omega), Decryptor.eta_pending hp]
  · intro lb hp hge hdec hlt
    rw [decrypt_next_header_ok hp hge hdec, decryptBody_stash (by omega)]

/-- Witness for C7 at concrete inputs: a 3-byte slice leaves a fresh decryptor
untouched, and an 18-byte encrypted header for length 40 consumes one nonce
and stores `pending_message_length = some 40`. -/
theorem c7_witness :
    Decryptor.decrypt_next ⟨List.replicate 32 3, List.replicate 32 8, 5, none, some [], []⟩
        [0, 1, 2] =
      .ok ⟨List.replicate 32 3, List.replicate 32 8, 5, none, some [], []⟩ none ∧
    Decryptor.decrypt_next ⟨List.replicate 32 3, List.replicate 32 8, 5, none, some [], []⟩
        (chacha.encrypt (List.replicate 32 3) 5 [] [0, 40]) =
      .ok { (⟨List.replicate 32 3, List.replicate 32 8, 5, none, some [], []⟩ :
              Decryptor).increment_nonce with
            pending_message_length := some 40 } none :=
  ⟨(c7_decrypt_next_short_inputs _ _).1 rfl (by decide),
   (c7_decrypt_next_short_inputs _ _).2.2 [0, 40] rfl
     (by rw [length_chacha_encrypt]; decide)
     (by rw [List.take_of_length_le (by rw [length_chacha_encrypt]; decide)]
         exact chacha_decrypt_encrypt _ 5 [] [0, 40])
     (by rw [length_chacha_encrypt]; decide)⟩

/-! ## Claim C8 -/

/-- C8: `encrypt_buf` on a buffer longer than `MaxMessageLen` (65535) aborts
as a programming error (`panic!`, modelled as `none`) rather than returning a
ciphertext; under the precondition `buffer.len() ≤ 65535` the abort branch is
unreachable and a ciphertext is always produced. -/
theorem c8_oversize_is_abort (e : Encryptor) (buffer : List Byte) :
    (buffer.length > 65535 → e.encrypt_buf buffer = none) ∧
    (buffer.length ≤ 65535 → ∃ e' c, e.encrypt_buf buffer = some (e', c)) := by
  constructor
  · intro h
    simp only [Encryptor.encrypt_buf,
      if_pos (show buffer.length > LN_MAX_MSG_LEN by rw [max_msg_len_eq]; omega)]
  · intro h
    exact ⟨_, _, encrypt_buf_eq (by rw [max_msg_len_eq]; omega)⟩

/-- Witness for C8: `encrypt_buf` of 65536 zero bytes aborts, and of the empty
buffer succeeds. -/
theorem c8_witness :
    (List.replicate 65536 (0 : Byte)).length > 65535 ∧
    Encryptor.encrypt_buf ⟨List.replicate 32 1, List.replicate 32 2, 0⟩
      (List.replicate 65536 0) = none ∧
    ([] : List Byte).length ≤ 65535 ∧
    ∃ e' c, Encryptor.encrypt_buf ⟨List.replicate 32 1, List.replicate 32 2, 0⟩ [] =
      some (e', c) :=
  ⟨by rw [List.length_replicate]; omega,
   (c8_oversize_is_abort ⟨List.replicate 32 1, List.replicate 32 2, 0⟩
     (List.replicate 65536 0)).1 (by rw [List.length_replicate]; omega),
   by simp,
   (c8_oversize_is_abort ⟨List.replicate 32 1, List.replicate 32 2, 0⟩ []).2 (by simp)⟩

/-! ## Claim C9 -/

/-- C9: for every buffer with `len ≤ 65535`, `encrypt_buf` returns exactly
`18 + len + 16` bytes — an 18-byte AEAD-encrypted big-endian length header
followed by the `(len + 16)`-byte AEAD-encrypted body; in particular
`encrypt_buf` of the empty buffer returns 34 bytes and round-trips through a
matching decryptor to the empty payload. -/
theorem c9_output_shape (k ck : SymmetricKey) (n : Nat) (p : List Byte)
    (hp : p.length ≤ 65535) :
    (∃ e' c, Encryptor.encrypt_buf ⟨k, ck, n⟩ p = some (e', c) ∧
      c.length = 18 + p.length + 16 ∧
      c = chacha.encrypt k n [] (byte_utils.be16_to_array (p.length % 2 ^ 16)) ++
          chacha.encrypt (⟨k, ck, n⟩ : Encryptor).increment_nonce.sending_key
            (⟨k, ck, n⟩ : Encryptor).increment_nonce.sending_nonce [] p ∧
      (chacha.encrypt k n [] (byte_utils.be16_to_array (p.length % 2 ^ 16))).length = 18 ∧
      (chacha.encrypt (⟨k, ck, n⟩ : Encryptor).increment_nonce.sending_key
        (⟨k, ck, n⟩ : Encryptor).increment_nonce.sending_nonce [] p).length =
        p.length + 16) ∧
    (∃ e' c d', Encryptor.encrypt_buf ⟨k, ck, n⟩ [] = some (e', c) ∧ c.length = 34 ∧
      Decryptor.read ⟨k, ck, n, none, some [], []⟩ c = .ok d' ∧
      (d'.next).2 = some []) := by
  constructor
  · refine ⟨_, _, encrypt_buf_eq (by rw [max_msg_len_eq]; exact hp), ?_, rfl,
      frame_header_length k n _, length_chacha_encrypt _ _ _ _⟩
    rw [List.length_append, frame_header_length, length_chacha_encrypt]
    omega
  · refine ⟨_, _, _, encrypt_buf_eq (by simp [max_msg_len_eq]), ?_,
      read_frame k ck n [] (by simp), by rw [next_of_payloads rfl]⟩
    rw [List.length_append, frame_header_length, length_chacha_encrypt]
    rfl

/-- Witness for C9 at a concrete input: payload `[9, 9, 9, 9, 9]`. -/
theorem c9_witness :
    ([9, 9, 9, 9, 9] : List Byte).length ≤ 65535 ∧
    ((∃ e' c, Encryptor.encrypt_buf ⟨List.replicate 32 5, List.replicate 32 6, 3⟩
        [9, 9, 9, 9, 9] = some (e', c) ∧
      c.length = 18 + ([9, 9, 9, 9, 9] : List Byte).length + 16 ∧
      c = chacha.encrypt (List.replicate 32 5) 3 []
            (byte_utils.be16_to_array (([9, 9, 9, 9, 9] : List Byte).length % 2 ^ 16)) ++
          chacha.encrypt
            (⟨List.replicate 32 5, List.replicate 32 6, 3⟩ :
              Encryptor).increment_nonce.sending_key
            (⟨List.replicate 32 5, List.replicate 32 6, 3⟩ :
              Encryptor).increment_nonce.sending_nonce [] [9, 9, 9, 9, 9] ∧
      (chacha.encrypt (List.replicate 32 5) 3 []
        (byte_utils.be16_to_array (([9, 9, 9, 9, 9] : List Byte).length % 2 ^ 16))).length =
        18 ∧
      (chacha.encrypt
        (⟨List.replicate 32 5, List.replicate 32 6, 3⟩ :
          Encryptor).increment_nonce.sending_key
        (⟨List.replicate 32 5, List.replicate 32 6, 3⟩ :
          Encryptor).increment_nonce.sending_nonce [] [9, 9, 9, 9, 9]).length =
        ([9, 9, 9, 9, 9] : List Byte).length + 16) ∧
    (∃ e' c d', Encryptor.encrypt_buf ⟨List.replicate 32 5, List.replicate 32 6, 3⟩ [] =
        some (e', c) ∧ c.length = 34 ∧
      Decryptor.read ⟨List.replicate 32 5, List.replicate 32 6, 3, none, some [], []⟩ c =
        .ok d' ∧
      (d'.next).2 = some [])) :=
  ⟨by decide,
   c9_output_shape (List.replicate 32 5) (List.replicate 32 6) 3 [9, 9, 9, 9, 9] (by decide)⟩

/-! Case analysis for the outcomes of `read`. -/

theorem read_ok_cases {d : Decryptor} {data : List Byte} {d' : Decryptor}
    (h : d.read data = .ok d') :
    ∃ rb d1 r1, d.read_buffer = some rb ∧
      ({ d with read_buffer := none }).readLoop (rb ++ data) = .ok d1 r1 ∧
      ¬ r1.length > LN_MAX_PACKET_LENGTH ∧ d' = { d1 with read_buffer := some r1 } := by
  cases hrb : d.read_buffer with
  | none =>
    rw [read_none hrb] at h
    exact ReadResult.noConfusion h
  | some rb =>
    rw [read_eq hrb] at h
    split at h
    next d1 e heq => exact ReadResult.noConfusion h
    next d1 r1 heq =>
      split at h
      · exact ReadResult.noConfusion h
      next hlen =>
        injection h with h
        exact ⟨rb, d1, r1, rfl, heq, hlen, h.symm⟩

theorem read_err_cases {d : Decryptor} {data : List Byte} {d' : Decryptor} {er : String}
    (h : d.read data = .err d' er) :
    ∃ rb, d.read_buffer = some rb ∧
      ({ d with read_buffer := none }).readLoop (rb ++ data) = .err d' er := by
  cases hrb : d.read_buffer with
  | none =>
    rw [read_none hrb] at h
    exact ReadResult.noConfusion h
  | some rb =>
    rw [read_eq hrb] at h
    split at h
    next d1 e heq =>
      injection h with h1 h2
      subst h1
      subst h2
      exact ⟨rb, rfl, heq⟩
    next d1 r1 heq =>
      split at h
      · exact ReadResult.noConfusion h
      · exact ReadResult.noConfusion h

theorem read_nil_of_fresh {d : Decryptor} (hrb : d.read_buffer = some [])
    (hp : d.pending_message_length = none) : d.read [] = .ok d := by
  obtain ⟨a, b, c, pml, rb2, q⟩ := d
  have hrb2 : rb2 = some [] := hrb
  subst hrb2
  have hloop : ({ (⟨a, b, c, pml, some [], q⟩ : Decryptor) with read_buffer := none }).readLoop
      (([] : List Byte) ++ []) = .ok ⟨a, b, c, pml, none, q⟩ [] :=
    readLoop_break (decrypt_next_short hp (by simp))
  exact read_of_readLoop_ok hrb hloop (by simp)

/-! ## Claim C10 -/

/-- C10: for every `Encryptor` and `Decryptor` created by
`create_encryptor_decryptor` and every sequence of successful operations the
nonce stays in `[0, 999]`: it starts at 0, one `encrypt_buf` (two AEAD
operations) preserves `nonce < 1000`, and `read` preserves `nonce < 1000` on
both the success and the error path; consequently the 32-bit nonce addition
`nonce + 1` never overflows. -/
theorem c10_nonce_in_range (sk rk ck : SymmetricKey) :
    ((create_encryptor_decryptor sk rk ck).1.sending_nonce = 0 ∧
     (create_encryptor_decryptor sk rk ck).2.receiving_nonce = 0) ∧
    (∀ (e : Encryptor) (p : List Byte) (e' : Encryptor) (c : List Byte),
      e.sending_nonce < 1000 → e.encrypt_buf p = some (e', c) →
      e'.sending_nonce < 1000) ∧
    (∀ (d : Decryptor) (data : List Byte) (d' : Decryptor),
      d.receiving_nonce < 1000 →
      (d.read data = .ok d' → d'.receiving_nonce < 1000) ∧
      (∀ er, d.read data = .err d' er → d'.receiving_nonce < 1000)) ∧
    (∀ n : Nat, n < 1000 → (n + 1) % 2 ^ 32 = n + 1) := by
  refine ⟨⟨rfl, rfl⟩, ?_, ?_, fun n h => Nat.mod_eq_of_lt (by omega)⟩
  · intro e p e' c hlt h
    rw [encrypt_buf_state h, increment_nonce_nonce_e, increment_nonce_nonce_e]
    exact nonceStep_lt (nonceStep_lt hlt)
  · intro d data d' hlt
    constructor
    · intro h
      obtain ⟨rb, d1, r1, hrb, hloop, _, hd'⟩ := read_ok_cases h
      subst hd'
      have := (readLoop_ok_inv hloop).2.2 hlt
      exact this
    · intro er h
      obtain ⟨rb, hrb, hloop⟩ := read_err_cases h
      exact (readLoop_err_inv hloop).2 hlt

/-- Witness for C10 at concrete inputs: a fresh pair, one concrete
`encrypt_buf` call, one concrete `read` call, and the no-overflow fact at
nonce 999. -/
theorem c10_witness :
    ((⟨List.replicate 32 1, List.replicate 32 2, 0⟩ : Encryptor).sending_nonce < 1000 ∧
      ((⟨List.replicate 32 1, List.replicate 32 2, 0⟩ :
          Encryptor).increment_nonce.increment_nonce).sending_nonce < 1000) ∧
    ((⟨List.replicate 32 1, List.replicate 32 2, 0, none, some [], []⟩ :
        Decryptor).receiving_nonce < 1000 ∧
      (⟨List.replicate 32 1, List.replicate 32 2, 0, none, some [], []⟩ :
        Decryptor).receiving_nonce < 1000) ∧
    (999 < 1000 ∧ (999 + 1) % 2 ^ 32 = 999 + 1) := by
  refine ⟨⟨by decide, ?_⟩, ⟨by decide, ?_⟩, by decide,
    (c10_nonce_in_range (List.replicate 32 1) (List.replicate 32 2)
      (List.replicate 32 2)).2.2.2 999 (by decide)⟩
  · exact (c10_nonce_in_range (List.replicate 32 1) (List.replicate 32 2)
      (List.replicate 32 2)).2.1
      ⟨List.replicate 32 1, List.replicate 32 2, 0⟩ [] _ _ (by decide)
      (encrypt_buf_eq (by decide))
  · exact ((c10_nonce_in_range (List.replicate 32 1) (List.replicate 32 2)
      (List.replicate 32 2)).2.2.1
      ⟨List.replicate 32 1, List.replicate 32 2, 0, none, some [], []⟩ []
      ⟨List.replicate 32 1, List.replicate 32 2, 0, none, some [], []⟩ (by decide)).1
      (read_nil_of_fresh rfl rfl)

/-! Helpers for the `read` error / abort paths. -/

theorem readLoop_stash_break {d : Decryptor} {rest : List Byte} {L : Nat}
    (hp : d.pending_message_length = some L) (hlen : rest.length < 34 + L) :
    d.readLoop rest = .ok d rest :=
  readLoop_break
    (by rw [decrypt_next_pending hp, decryptBody_stash hlen, Decryptor.eta_pending hp])

theorem read_header_err {d : Decryptor} {data : List Byte} {e : String}
    (hrb : d.read_buffer = some []) (hp : d.pending_message_length = none)
    (hlen : 18 ≤ data.length)
    (hdec : chacha.decrypt d.receiving_key d.receiving_nonce [] (data.take 18) = .error e) :
    d.read data = .err { d with read_buffer := none } e := by
  apply read_err_of_readLoop_err hrb
  apply readLoop_err
  have h18 : 18 ≤ (([] : List Byte) ++ data).length := by simpa using hlen
  have hdec2 : chacha.decrypt ({ d with read_buffer := none } : Decryptor).receiving_key
      ({ d with read_buffer := none } : Decryptor).receiving_nonce []
      ((([] : List Byte) ++ data).take 18) = .error e := hdec
  exact decrypt_next_header_err hp h18 hdec2

/-! ## Claim C4 (corrected) -/

/-- C4 counterexample: the claim says an oversized residue at loop exit makes
`read` fail with a recoverable error return (`OversizedResidue`); in the code
the check (encryption.rs lines 147-149) is a `panic!`, i.e. an abort.  At this
concrete decryptor — pending length 70000 with a 70000-byte residue, a state
only expressible because `pending_message_length` is a raw `usize` — the
extraction loop exits immediately and `read` aborts instead of returning an
error. -/
theorem c4_counterexample :
    Decryptor.read ⟨List.replicate 32 2, List.replicate 32 3, 0, some 70000,
        some (List.replicate 70000 0), []⟩ [] = .panicked := by
  have hloop : ({ (⟨List.replicate 32 2, List.replicate 32 3, 0, some 70000,
        some (List.replicate 70000 0), []⟩ : Decryptor) with read_buffer := none }).readLoop
      (List.replicate 70000 0 ++ []) =
      .ok { (⟨List.replicate 32 2, List.replicate 32 3, 0, some 70000,
        some (List.replicate 70000 0), []⟩ : Decryptor) with read_buffer := none }
        (List.replicate 70000 0 ++ []) :=
    readLoop_stash_break rfl
      (by rw [List.length_append, List.length_replicate, List.length_nil]; omega)
  exact read_panicked_of_oversize rfl hloop
    (by rw [List.length_append, List.length_replicate, List.length_nil]; omega)

/-- C4 amended: the residue check of `read` happens only at loop exit — the
extraction loop itself imposes no size limit, and whenever the exit residue is
within `LN_MAX_PACKET_LENGTH` the call succeeds no matter how large the
buffer was mid-extraction — but an oversized exit residue is an abort
(`panic!`), not an error return; moreover from any state whose pending length
is one the code can produce (`≤ 65535`) the exit residue is at most 65568, so
the abort branch is unreachable. -/
theorem c4_oversize_residue_aborts (d : Decryptor) (data rb : List Byte)
    (d1 : Decryptor) (r1 : List Byte)
    (hrb : d.read_buffer = some rb)
    (hloop : ({ d with read_buffer := none }).readLoop (rb ++ data) = .ok d1 r1) :
    (65569 < r1.length → d.read data = .panicked) ∧
    (r1.length ≤ 65569 → d.read data = .ok { d1 with read_buffer := some r1 }) ∧
    (pendingGood d → r1.length ≤ 65568) := by
  refine ⟨fun h => read_panicked_of_oversize hrb hloop h,
          fun h => read_of_readLoop_ok hrb hloop h, fun hpg => ?_⟩
  have hpg0 : pendingGood { d with read_buffer := none } := hpg
  exact ((readLoop_ok_inv hloop).2.1 hpg0).2

/-- Witness for C4's amended theorem: the abort branch at the concrete
oversized state, and the success branch on a fresh decryptor. -/
theorem c4_witness :
    Decryptor.read ⟨List.replicate 32 2, List.replicate 32 3, 0, some 70000,
        some (List.replicate 70000 0), []⟩ [] = .panicked ∧
    Decryptor.read ⟨List.replicate 32 2, List.replicate 32 3, 0, none, some [], []⟩ [] =
      .ok ⟨List.replicate 32 2, List.replicate 32 3, 0, none, some [], []⟩ := by
  constructor
  · exact (c4_oversize_residue_aborts
      ⟨List.replicate 32 2, List.replicate 32 3, 0, some 70000,
        some (List.replicate 70000 0), []⟩ [] (List.replicate 70000 0)
      { (⟨List.replicate 32 2, List.replicate 32 3, 0, some 70000,
        some (List.replicate 70000 0), []⟩ : Decryptor) with read_buffer := none }
      (List.replicate 70000 0 ++ []) rfl
      (readLoop_stash_break rfl
        (by rw [List.length_append, List.length_replicate, List.length_nil]; omega))).1
      (by rw [List.length_append, List.length_replicate, List.length_nil]; omega)
  · exact (c4_oversize_residue_aborts
      ⟨List.replicate 32 2, List.replicate 32 3, 0, none, some [], []⟩ [] []
      ⟨List.replicate 32 2, List.replicate 32 3, 0, none, none, []⟩ [] rfl
      (readLoop_break (decrypt_next_short rfl (by simp)))).2.1 (by simp)

/-! ## Claim C6 (corrected) -/

/-- C6 counterexample: the claim says that after `read` returns an AEAD error
no subsequent operation on the decryptor panics; in the code `read` takes
`read_buffer` (line 117) and never restores it on the error path (lines
137-139), so the next `read` call hits `self.read_buffer.take().unwrap()` on
`None` and panics.  Concretely: 34 bytes of `1`s fail header authentication,
the error is returned, and the very next `read` call aborts. -/
theorem c6_counterexample :
    Decryptor.read ⟨List.replicate 32 4, List.replicate 32 5, 0, none, some [], []⟩
        (List.replicate 34 1) =
      .err ⟨List.replicate 32 4, List.replicate 32 5, 0, none, none, []⟩ "invalid hmac" ∧
    Decryptor.read ⟨List.replicate 32 4, List.replicate 32 5, 0, none, none, []⟩ [] =
      .panicked := by
  constructor
  · exact read_header_err rfl rfl (by rw [List.length_replicate]; omega)
      (by simp only [chacha.decrypt]
          rw [if_neg (by decide)])
  · exact read_none rfl

/-- C6 amended: an AEAD failure inside `read` is propagated to the caller as
an error return, and the queue accessor (`next`) remains usable, but the
decryptor is left with `read_buffer = None` (taken and never restored), so
every subsequent `read` call panics; the caller must drop the connection. -/
theorem c6_error_leaves_read_poisoned (d : Decryptor) (data : List Byte)
    (d' : Decryptor) (er : String)
    (h : d.read data = .err d' er) :
    d'.read_buffer = none ∧ (∀ b, d'.read b = .panicked) := by
  obtain ⟨rb, hrb, hloop⟩ := read_err_cases h
  have hnone : d'.read_buffer = none := (readLoop_err_inv hloop).1
  exact ⟨hnone, fun b => read_none hnone⟩

/-- Witness for C6's amended theorem at the concrete failing input. -/
theorem c6_witness :
    (⟨List.replicate 32 4, List.replicate 32 5, 0, none, none, []⟩ :
      Decryptor).read_buffer = none ∧
    Decryptor.read ⟨List.replicate 32 4, List.replicate 32 5, 0, none, none, []⟩ [] =
      .panicked := by
  have herr : Decryptor.read
      ⟨List.replicate 32 4, List.replicate 32 5, 0, none, some [], []⟩
      (List.replicate 34 1) =
      .err ⟨List.replicate 32 4, List.replicate 32 5, 0, none, none, []⟩ "invalid hmac" :=
    read_header_err rfl rfl (by rw [List.length_replicate]; omega)
      (by simp only [chacha.decrypt]
          rw [if_neg (by decide)])
  exact ⟨(c6_error_leaves_read_poisoned _ _ _ _ herr).1,
    (c6_error_leaves_read_poisoned _ _ _ _ herr).2 []⟩

/-! ## Claim C5 (corrected) -/

/-- C5 counterexample: the claim says the encryptor's Nth `encrypt_buf` call
consumes nonces `2N` and `2N + 1` for every `N`.  The header of a call is
encrypted under the current `sending_nonce` (see `encrypt_buf_eq`), but after
500 calls (1000 AEAD operations) key rotation has reset the counter: at
`N = 500` the counter is 0, not `2 * 500 = 1000`, so the 501st call encrypts
its header under nonce 0. -/
theorem c5_counterexample :
    (encIter ⟨List.replicate 32 1, List.replicate 32 2, 0⟩ 500).sending_nonce = 0 ∧
    (0 : Nat) ≠ 2 * 500 := by
  constructor
  · rw [encIter_nonce rfl 500]
  · omega

/-- C5 amended: the Nth `encrypt_buf` call (counting from 0) encrypts the
length header under the current nonce counter and the body under the next
counter value, each advancing the state one `increment_nonce` step; from a
fresh encryptor the counter before call `N` is `(2N) % 1000` — equal to `2N`
only while `2N < 1000`, because rotation resets the counter every 1000 AEAD
operations — and a matching decryptor reading one frame advances through
exactly the same two counter steps (consuming the matching nonces in the same
order). -/
theorem c5_nonce_sequence :
    (∀ (e : Encryptor) (p : List Byte), p.length ≤ 65535 →
      e.encrypt_buf p = some (e.increment_nonce.increment_nonce,
        chacha.encrypt e.sending_key e.sending_nonce []
          (byte_utils.be16_to_array (p.length % 2 ^ 16)) ++
        chacha.encrypt e.increment_nonce.sending_key e.increment_nonce.sending_nonce [] p)) ∧
    (∀ (sk rk ck : SymmetricKey) (N : Nat),
      (encIter (create_encryptor_decryptor sk rk ck).1 N).sending_nonce = 2 * N % 1000) ∧
    (∀ (k ck : SymmetricKey) (n : Nat) (p : List Byte), p.length ≤ 65535 →
      ∃ d', Decryptor.read ⟨k, ck, n, none, some [], []⟩
          (chacha.encrypt k n [] (byte_utils.be16_to_array (p.length % 2 ^ 16)) ++
           chacha.encrypt (⟨k, ck, n⟩ : Encryptor).increment_nonce.sending_key
             (⟨k, ck, n⟩ : Encryptor).increment_nonce.sending_nonce [] p) = .ok d' ∧
        d'.triple = (⟨k, ck, n⟩ : Encryptor).increment_nonce.increment_nonce.triple) := by
  refine ⟨fun e p hp => encrypt_buf_eq (by rw [max_msg_len_eq]; exact hp),
          fun sk rk ck N => encIter_nonce rfl N, ?_⟩
  intro k ck n p hp
  exact ⟨_, read_frame k ck n p hp, rfl⟩

/-- Witness for C5's amended theorem at concrete inputs. -/
theorem c5_witness :
    ([2, 3] : List Byte).length ≤ 65535 ∧
    Encryptor.encrypt_buf ⟨List.replicate 32 1, List.replicate 32 2, 4⟩ [2, 3] =
      some ((⟨List.replicate 32 1, List.replicate 32 2, 4⟩ :
              Encryptor).increment_nonce.increment_nonce,
        chacha.encrypt (List.replicate 32 1) 4 []
          (byte_utils.be16_to_array (([2, 3] : List Byte).length % 2 ^ 16)) ++
        chacha.encrypt
          (⟨List.replicate 32 1, List.replicate 32 2, 4⟩ :
            Encryptor).increment_nonce.sending_key
          (⟨List.replicate 32 1, List.replicate 32 2, 4⟩ :
            Encryptor).increment_nonce.sending_nonce [] [2, 3]) ∧
    (encIter (create_encryptor_decryptor (List.replicate 32 1) (List.replicate 32 2)
      (List.replicate 32 3)).1 3).sending_nonce = 2 * 3 % 1000 :=
  ⟨by decide,
   c5_nonce_sequence.1 ⟨List.replicate 32 1, List.replicate 32 2, 4⟩ [2, 3] (by decide),
   c5_nonce_sequence.2.1 (List.replicate 32 1) (List.replicate 32 2)
     (List.replicate 32 3) 3⟩

/-! ## Claim C2 -/

theorem read_split {d : Decryptor} {a b : List Byte} {dF : Decryptor}
    (hpg : pendingGood d) (h : d.read (a ++ b) = .ok dF) :
    ∃ d1, d.read a = .ok d1 ∧ pendingGood d1 ∧ d1.read b = .ok dF := by
  obtain ⟨rb, dL, rL, hrb, hloop, hlen, hdF⟩ := read_ok_cases h
  rw [show rb ++ (a ++ b) = (rb ++ a) ++ b from (List.append_assoc rb a b).symm] at hloop
  cases v : ({ d with read_buffer := none }).readLoop (rb ++ a) with
  | err d1 e =>
    rw [readLoop_append_err b v] at hloop
    exact LoopResult.noConfusion hloop
  | ok d1 r1 =>
    have hinv := readLoop_ok_inv v
    have hpg0 : pendingGood ({ d with read_buffer := none } : Decryptor) := hpg
    have hpg1 := hinv.2.1 hpg0
    have hread1 : d.read a = .ok { d1 with read_buffer := some r1 } :=
      read_of_readLoop_ok hrb v (by omega)
    refine ⟨{ d1 with read_buffer := some r1 }, hread1, hpg1.1, ?_⟩
    rw [readLoop_append_ok b v] at hloop
    have hnone : d1.read_buffer = none := hinv.1
    have hloop2 : ({ ({ d1 with read_buffer := some r1 } : Decryptor) with
        read_buffer := none }).readLoop (r1 ++ b) = .ok dL rL := by
      have he : ({ ({ d1 with read_buffer := some r1 } : Decryptor) with
          read_buffer := none } : Decryptor) = d1 := by
        obtain ⟨x1, x2, x3, x4, x5, x6⟩ := d1
        have hx : x5 = none := hnone
        subst hx
        rfl
      rw [he]
      exact hloop
    rw [hdF]
    exact read_of_readLoop_ok rfl hloop2 (by rw [max_packet_length_eq] at hlen; omega)

theorem readPieces_of_read_join (pieces : List (List Byte)) :
    ∀ (d dF : Decryptor), pendingGood d → pieces ≠ [] →
      d.read pieces.flatten = .ok dF → d.readPieces pieces = .ok dF := by
  induction pieces with
  | nil => intro d dF _ hne _; exact absurd rfl hne
  | cons p rest ih =>
    intro d dF hpg _ h
    cases rest with
    | nil =>
      simp only [List.flatten_cons, List.flatten_nil, List.append_nil] at h
      simp only [Decryptor.readPieces, h]
    | cons q rest2 =>
      simp only [List.flatten_cons] at h
      obtain ⟨d1, h1, hpg1, h2⟩ := read_split hpg h
      simp only [Decryptor.readPieces, h1]
      exact ih d1 dF hpg1 (by simp) (by simpa only [List.flatten_cons] using h2)

/-- C2: for every ciphertext byte stream that a single `read` of the full
concatenation accepts (returning `Ok`), and every partition of it into
consecutive pieces, calling `Decryptor::read` once per piece in order
reaches exactly the same final decryptor state — in particular it produces
the same sequence of decrypted payloads, in the same order, as the single
`read` of the full concatenation.  `pendingGood` restricts the starting state
to pending lengths the code can actually produce (`slice_to_be16 ≤ 65535`);
it holds for every freshly created and every post-`read` decryptor. -/
theorem c2_fragmentation_invariance (d dF : Decryptor) (pieces : List (List Byte))
    (hpg : pendingGood d) (hne : pieces ≠ [])
    (h : d.read pieces.flatten = .ok dF) :
    d.readPieces pieces = .ok dF ∧
    ∀ dP, d.readPieces pieces = .ok dP →
      dP.decrypted_payloads = dF.decrypted_payloads := by
  have hmain := readPieces_of_read_join pieces d dF hpg hne h
  refine ⟨hmain, fun dP hdP => ?_⟩
  rw [hmain] at hdP
  injection hdP with h1
  rw [h1]

/-- Witness for C2 at a concrete input: a fresh decryptor and the one-piece
partition of a single concrete frame carrying payload `[1]`. -/
theorem c2_witness :
    pendingGood (⟨List.replicate 32 6, List.replicate 32 7, 0, none, some [], []⟩ :
      Decryptor) ∧
    ([chacha.encrypt (List.replicate 32 6) 0 []
        (byte_utils.be16_to_array (([1] : List Byte).length % 2 ^ 16)) ++
      chacha.encrypt (⟨List.replicate 32 6, List.replicate 32 7, 0⟩ :
          Encryptor).increment_nonce.sending_key
        (⟨List.replicate 32 6, List.replicate 32 7, 0⟩ :
          Encryptor).increment_nonce.sending_nonce [] [1]] : List (List Byte)) ≠ [] ∧
    Decryptor.read ⟨List.replicate 32 6, List.replicate 32 7, 0, none, some [], []⟩
      ([chacha.encrypt (List.replicate 32 6) 0 []
          (byte_utils.be16_to_array (([1] : List Byte).length % 2 ^ 16)) ++
        chacha.encrypt (⟨List.replicate 32 6, List.replicate 32 7, 0⟩ :
            Encryptor).increment_nonce.sending_key
          (⟨List.replicate 32 6, List.replicate 32 7, 0⟩ :
            Encryptor).increment_nonce.sending_nonce [] [1]] : List (List Byte)).flatten =
      .ok { ({ (⟨List.replicate 32 6, List.replicate 32 7, 0, none, none,
              ([] : List (List Byte))⟩ : Decryptor).increment_nonce with
            pending_message_length := none }).increment_nonce with
          read_buffer := some [], decrypted_payloads := [[1]] } ∧
    Decryptor.readPieces
      ⟨List.replicate 32 6, List.replicate 32 7, 0, none, some [], []⟩
      [chacha.encrypt (List.replicate 32 6) 0 []
          (byte_utils.be16_to_array (([1] : List Byte).length % 2 ^ 16)) ++
        chacha.encrypt (⟨List.replicate 32 6, List.replicate 32 7, 0⟩ :
            Encryptor).increment_nonce.sending_key
          (⟨List.replicate 32 6, List.replicate 32 7, 0⟩ :
            Encryptor).increment_nonce.sending_nonce [] [1]] =
      .ok { ({ (⟨List.replicate 32 6, List.replicate 32 7, 0, none, none,
              ([] : List (List Byte))⟩ : Decryptor).increment_nonce with
            pending_message_length := none }).increment_nonce with
          read_buffer := some [], decrypted_payloads := [[1]] } := by
  have hfull : Decryptor.read
      ⟨List.replicate 32 6, List.replicate 32 7, 0, none, some [], []⟩
      ([chacha.encrypt (List.replicate 32 6) 0 []
          (byte_utils.be16_to_array (([1] : List Byte).length % 2 ^ 16)) ++
        chacha.encrypt (⟨List.replicate 32 6, List.replicate 32 7, 0⟩ :
            Encryptor).increment_nonce.sending_key
          (⟨List.replicate 32 6, List.replicate 32 7, 0⟩ :
            Encryptor).increment_nonce.sending_nonce [] [1]] : List (List Byte)).flatten =
      .ok { ({ (⟨List.replicate 32 6, List.replicate 32 7, 0, none, none,
              ([] : List (List Byte))⟩ : Decryptor).increment_nonce with
            pending_message_length := none }).increment_nonce with
          read_buffer := some [], decrypted_payloads := [[1]] } := by
    simp only [List.flatten_cons, List.flatten_nil, List.append_nil]
    exact read_frame (List.replicate 32 6) (List.replicate 32 7) 0 [1] (by decide)
  exact ⟨trivial, by simp, hfull,
    (c2_fragmentation_invariance _ _ _ (by trivial) (by simp) hfull).1⟩

end Encryption
